import Mathlib

/-!
Verification development for the `dependency_runner` repository: a shallow
embedding of its DLL-resolution core (lookup-path construction, the
filesystem cache, the lookup procedure, the executables graph and the
breadth-first resolver) together with theorems settling the specification
claims.  Paths and module names are modelled as `String`, Rust `HashMap`s
as association lists, `usize` as `Nat` with explicit wrap-around where the
code can overflow, and fallible Rust functions as `Except`.
-/

namespace DepRunner

/-- Model of the repository's `LookupError` kinds (common.rs); payloads are
reduced to their message strings. -/
inductive LookupError where
  | IOError (msg : String)
  | PEError (msg : String)
  | ScanError (msg : String)
  | ParseError (msg : String)
  | ContextDeductionError (msg : String)
  deriving Repr, DecidableEq

deriving instance DecidableEq for Except

/-- `apiset::ApisetMap = HashMap<String, Vec<String>>` (apiset/mod.rs),
as an association list from lowercased virtual base name to host DLL names. -/
abbrev ApisetMap := List (String × List String)

/-- `KnownDLLList.entries : HashMap<String, PathBuf>` (system.rs),
as an association list from lowercased DLL name to full path. -/
abbrev KnownDLLList := List (String × String)

/-- `LookupPathEntry` (path.rs): a tagged search-step entry.  The `KnownDLLs`
and `ApiSet` variants carry their lookup tables as in path.rs. -/
inductive LookupPathEntry where
  | KnownDLLs (table : KnownDLLList)
  | ExecutableDir (p : String)
  | ApiSet (map : ApisetMap)
  | SystemDir (p : String)
  | WindowsDir (p : String)
  | WorkingDir (p : String)
  | SystemPath (p : String)
  | UserPath (p : String)
  deriving Repr, DecidableEq

/-- `LookupPathEntry::is_system` (path.rs lines 36-41). -/
def LookupPathEntry.is_system : LookupPathEntry → Bool
  | .KnownDLLs _ => true
  | .ApiSet _ => true
  | .WindowsDir _ => true
  | .SystemDir _ => true
  | _ => false

/-- `matches!(e, LookupPathEntry::ApiSet(_))` as used by the runner. -/
def LookupPathEntry.isApiSet : LookupPathEntry → Bool
  | .ApiSet _ => true
  | _ => false

/-- `matches!(e, LookupPathEntry::KnownDLLs(_))`. -/
def LookupPathEntry.isKnownDLLs : LookupPathEntry → Bool
  | .KnownDLLs _ => true
  | _ => false

/-- `matches!(e, LookupPathEntry::SystemDir(_))`, used by the ApiSet branch
of `search_dll`. -/
def LookupPathEntry.isSystemDir : LookupPathEntry → Bool
  | .SystemDir _ => true
  | _ => false

/-- `LookupPathEntry::get_path` (path.rs lines 43-56). -/
def LookupPathEntry.get_path : LookupPathEntry → Option String
  | .KnownDLLs _ => none
  | .ApiSet _ => none
  | .ExecutableDir p => some p
  | .SystemDir p => some p
  | .WindowsDir p => some p
  | .WorkingDir p => some p
  | .SystemPath p => some p
  | .UserPath p => some p

/-- `WindowsSystem` (system.rs lines 45-53). -/
structure WindowsSystem where
  safe_dll_search_mode_on : Option Bool
  apiset_map : Option ApisetMap
  known_dlls : Option KnownDLLList
  win_dir : String
  sys_dir : String
  system_path : Option (List String)
  deriving Repr, DecidableEq

/-- `LookupTarget` (query.rs lines 10-19). -/
structure LookupTarget where
  target_exe : String
  app_dir : String
  working_dir : String
  user_path : List String
  deriving Repr, DecidableEq

/-- `LookupParameters` (query.rs lines 22-29). -/
structure LookupParameters where
  max_depth : Option Nat
  skip_system_dlls : Bool
  extract_symbols : Bool
  deriving Repr, DecidableEq

/-- `LookupQuery` (query.rs lines 33-37). -/
structure LookupQuery where
  system : Option WindowsSystem
  target : LookupTarget
  parameters : LookupParameters
  deriving Repr, DecidableEq

/-- `LookupPath::system_path_entries` (path.rs lines 299-307): one
`SystemPath` entry per directory of the system PATH. -/
def system_path_entries (system : WindowsSystem) : List LookupPathEntry :=
  (system.system_path.getD []).map LookupPathEntry.SystemPath

/-- `LookupPath::user_path_entries` (path.rs lines 310-316): one `UserPath`
entry per user-supplied path directory. -/
def user_path_entries (q : LookupQuery) : List LookupPathEntry :=
  q.target.user_path.map LookupPathEntry.UserPath

/-- `LookupPath::deduce` (path.rs lines 86-149): the ordered entry list
derived from the query, translated branch by branch from the source. -/
def deduce (query : LookupQuery) : List LookupPathEntry :=
  match query.system with
  | some system =>
    let knowndlls_entry :=
      match system.known_dlls with
      | some known_dlls => [LookupPathEntry.KnownDLLs known_dlls]
      | none => []
    let apiset_entry :=
      match system.apiset_map with
      | some apiset_map => [LookupPathEntry.ApiSet apiset_map]
      | none => []
    let system_entries :=
      [LookupPathEntry.SystemDir system.sys_dir,
       LookupPathEntry.WindowsDir system.win_dir]
    if system.safe_dll_search_mode_on.getD true then
      knowndlls_entry ++ apiset_entry
        ++ [LookupPathEntry.ExecutableDir query.target.app_dir]
        ++ system_entries
        ++ [LookupPathEntry.WorkingDir query.target.working_dir]
        ++ system_path_entries system
        ++ user_path_entries query
    else
      knowndlls_entry ++ apiset_entry
        ++ [LookupPathEntry.ExecutableDir query.target.app_dir,
            LookupPathEntry.WorkingDir query.target.working_dir]
        ++ system_entries
        ++ system_path_entries system
        ++ user_path_entries query
  | none =>
    [LookupPathEntry.ExecutableDir query.target.app_dir,
     LookupPathEntry.WorkingDir query.target.working_dir]
      ++ user_path_entries query

/-- The lookup-path order as the specification enumerates it (spec 4.6):
KnownDLLs (if available), ApiSet (if available), ExecutableDir, SystemDir,
WindowsDir, WorkingDir, the SystemPath entries, the UserPath entries; with
safe-search off the WorkingDir entry moves before SystemDir; with no system
descriptor only ExecutableDir, WorkingDir and the UserPath entries remain. -/
def specLookupOrder (query : LookupQuery) : List LookupPathEntry :=
  match query.system with
  | none =>
    LookupPathEntry.ExecutableDir query.target.app_dir
      :: LookupPathEntry.WorkingDir query.target.working_dir
      :: q_user_entries query
  | some system =>
    let head :=
      (match system.known_dlls with
       | some t => [LookupPathEntry.KnownDLLs t]
       | none => []) ++
      (match system.apiset_map with
       | some m => [LookupPathEntry.ApiSet m]
       | none => [])
    let tail := sys_path_spec system ++ q_user_entries query
    if system.safe_dll_search_mode_on.getD true then
      head ++
        (LookupPathEntry.ExecutableDir query.target.app_dir
          :: LookupPathEntry.SystemDir system.sys_dir
          :: LookupPathEntry.WindowsDir system.win_dir
          :: LookupPathEntry.WorkingDir query.target.working_dir
          :: tail)
    else
      head ++
        (LookupPathEntry.ExecutableDir query.target.app_dir
          :: LookupPathEntry.WorkingDir query.target.working_dir
          :: LookupPathEntry.SystemDir system.sys_dir
          :: LookupPathEntry.WindowsDir system.win_dir
          :: tail)
where
  /-- One `SystemPath` entry per system-PATH directory (spec 4.6 item 7). -/
  sys_path_spec (system : WindowsSystem) : List LookupPathEntry :=
    (system.system_path.getD []).map LookupPathEntry.SystemPath
  /-- One `UserPath` entry per user-path directory (spec 4.6 item 8). -/
  q_user_entries (query : LookupQuery) : List LookupPathEntry :=
    query.target.user_path.map LookupPathEntry.UserPath

/-- C1: for every query, `LookupPath::deduce` produces exactly the ordered
entry list of spec 4.6 — with a system descriptor and safe-search on (or
unset): KnownDLLs (if a table is available), ApiSet (if a map is available),
ExecutableDir, SystemDir, WindowsDir, WorkingDir, then the SystemPath entries
and the UserPath entries; with safe-search off the same list with WorkingDir
placed right after ExecutableDir and before SystemDir; with no system
descriptor only ExecutableDir, WorkingDir and the UserPath entries. -/
theorem deduce_matches_spec_order (query : LookupQuery) :
    deduce query = specLookupOrder query := by
  unfold deduce specLookupOrder
  cases hs : query.system with
  | none => rfl
  | some system =>
    cases hkd : system.known_dlls <;>
      cases ham : system.apiset_map <;>
        cases hsafe : system.safe_dll_search_mode_on.getD true <;>
          simp [specLookupOrder.sys_path_spec, specLookupOrder.q_user_entries,
            system_path_entries, user_path_entries, hsafe]

/-- Rust `str::to_lowercase` / `to_ascii_lowercase` on the ASCII module
names this code handles, modelled character by character on `s.data`. -/
def toLowerStr (s : String) : String := String.mk (s.data.map Char.toLower)

/-- Fuel-bounded helper for `trim_end_matches`: each removal shortens the
string by at least one character, so fuel `s.data.length` is exact.  The
suffix test and the removal are modelled on the character list `s.data`. -/
def trim_end_matches_aux (pat : String) : Nat → String → String
  | 0, s => s
  | n + 1, s =>
    if !pat.data.isEmpty && pat.data.isSuffixOf s.data then
      trim_end_matches_aux pat n
        (String.mk (s.data.take (s.data.length - pat.data.length)))
    else s

/-- Rust `str::trim_end_matches(pat)`: repeatedly removes occurrences of
`pat` from the end of `s` (case-sensitively), as used by the code on
`".dll"` suffixes. -/
def trim_end_matches (s pat : String) : String :=
  trim_end_matches_aux pat s.data.length s

/-- The characters that open a comment line in a `.dwp` file
(path.rs line 160 / 214). -/
def dwpCommentChars : List Char := [':', ';', '/', '\'', '#']

/-- `LookupPath::dwp_string_to_context_entry` (path.rs lines 153-205),
translated arm by arm.  Rust\'s byte-level `s.is_empty()`, `s.chars().next()`,
`s.starts_with("UserDir ")` and `&s[8..]` are modelled on the character list
`s.data` (the prefix `"UserDir "` is ASCII, so byte and character indexing
agree); the Rust `match` on string literals becomes the same ordered chain of
equality tests. -/
def dwp_string_to_context_entry (s : String) (q : LookupQuery) :
    Except LookupError (List LookupPathEntry) :=
  match s.data with
  | [] => .ok []
  | c :: _ =>
    if dwpCommentChars.contains c then .ok []
    else if s = "SxS" then .ok []
    else if s = "KnownDLLs" then
      match q.system.bind (fun sys => sys.known_dlls) with
      | some kd => .ok [LookupPathEntry.KnownDLLs kd]
      | none => .ok []
    else if s = "AppDir" then .ok [LookupPathEntry.ExecutableDir q.target.app_dir]
    else if s = "32BitSysDir" then
      match q.system with
      | some system => .ok [LookupPathEntry.SystemDir system.sys_dir]
      | none => .ok []
    else if s = "16BitSysDir" then .ok []
    else if s = "OSDir" then
      match q.system with
      | some system => .ok [LookupPathEntry.WindowsDir system.win_dir]
      | none => .ok []
    else if s = "AppPath" then .ok []
    else if s = "SysPath" then
      match q.system.bind (fun sys => sys.system_path) with
      | some path => .ok (path.map LookupPathEntry.UserPath)
      | none => .ok []
    else if "UserDir ".data.isPrefixOf s.data then
      .ok [LookupPathEntry.UserPath (String.mk (s.data.drop 8))]
    else .error (.ParseError ("Unknown key in dwp file: " ++ s))

/-- A string of the form `"UserDir " ++ p` differs from any string whose
first character is not `U`. -/
theorem userdir_append_ne (p t : String) (c : Char) (cs : List Char)
    (ht : t.data = c :: cs) (hc : c ≠ 'U') : "UserDir " ++ p ≠ t := by
  intro h
  have h2 := congrArg String.data h
  rw [show ("UserDir " ++ p).data
      = 'U' :: 's' :: 'e' :: 'r' :: 'D' :: 'i' :: 'r' :: ' ' :: p.data from rfl,
    ht] at h2
  exact hc (List.cons.inj h2.symm).1

/-- A concrete Windows-system descriptor used for test inputs. -/
def sys6 : WindowsSystem :=
  { safe_dll_search_mode_on := none
    apiset_map := none
    known_dlls := some [("kernel32.dll", "C:/Windows/System32/kernel32.dll")]
    win_dir := "C:/Windows"
    sys_dir := "C:/Windows/System32"
    system_path := some ["C:/sysp"] }

/-- A concrete query with that system descriptor. -/
def q6 : LookupQuery :=
  { system := some sys6
    target := { target_exe := "C:/app/app.exe", app_dir := "C:/app",
                working_dir := "C:/app", user_path := ["C:/user"] }
    parameters := { max_depth := none, skip_system_dlls := false,
                    extract_symbols := false } }

/-- C6 counterexample: on a query whose system PATH is `["C:/sysp"]`, the
token `SysPath` parses to a `UserPath` entry, not to the `SystemPath` entry
the claim states. -/
theorem dwp_syspath_gives_userpath :
    dwp_string_to_context_entry "SysPath" q6
      = .ok [LookupPathEntry.UserPath "C:/sysp"]
    ∧ LookupPathEntry.UserPath "C:/sysp" ≠ LookupPathEntry.SystemPath "C:/sysp" := by
  exact ⟨rfl, by decide⟩

/-- C6 amended: `dwp_string_to_context_entry` maps (for a query whose system
descriptor, KnownDLLs table and system PATH are available) `KnownDLLs` to a
KnownDLLs entry, `AppDir` to ExecutableDir, `32BitSysDir` to SystemDir,
`OSDir` to WindowsDir, `SysPath` to one **UserPath** entry per system-PATH
directory (not SystemPath), `UserDir <path>` to a UserPath entry,
`SxS`/`16BitSysDir`/`AppPath` to no entry, and any other non-comment,
non-empty token to a parse error. -/
theorem dwp_token_mapping (q : LookupQuery) (sys : WindowsSystem)
    (kd : KnownDLLList) (sp : List String)
    (hsys : q.system = some sys) (hkd : sys.known_dlls = some kd)
    (hsp : sys.system_path = some sp) :
    dwp_string_to_context_entry "KnownDLLs" q = .ok [LookupPathEntry.KnownDLLs kd]
    ∧ dwp_string_to_context_entry "AppDir" q
        = .ok [LookupPathEntry.ExecutableDir q.target.app_dir]
    ∧ dwp_string_to_context_entry "32BitSysDir" q
        = .ok [LookupPathEntry.SystemDir sys.sys_dir]
    ∧ dwp_string_to_context_entry "OSDir" q
        = .ok [LookupPathEntry.WindowsDir sys.win_dir]
    ∧ dwp_string_to_context_entry "SysPath" q
        = .ok (sp.map LookupPathEntry.UserPath)
    ∧ dwp_string_to_context_entry "SxS" q = .ok []
    ∧ dwp_string_to_context_entry "16BitSysDir" q = .ok []
    ∧ dwp_string_to_context_entry "AppPath" q = .ok []
    ∧ (∀ p : String, dwp_string_to_context_entry ("UserDir " ++ p) q
        = .ok [LookupPathEntry.UserPath p])
    ∧ (∀ (s : String) (c : Char) (cs : List Char), s.data = c :: cs →
        dwpCommentChars.contains c = false →
        s ∉ (["SxS", "KnownDLLs", "AppDir", "32BitSysDir", "16BitSysDir",
              "OSDir", "AppPath", "SysPath"] : List String) →
        "UserDir ".data.isPrefixOf s.data = false →
        dwp_string_to_context_entry s q
          = .error (.ParseError ("Unknown key in dwp file: " ++ s))) := by
  refine ⟨?_, rfl, ?_, ?_, ?_, rfl, rfl, rfl, ?_, ?_⟩
  · have h : dwp_string_to_context_entry "KnownDLLs" q
        = match q.system.bind (fun sys => sys.known_dlls) with
          | some kd => Except.ok [LookupPathEntry.KnownDLLs kd]
          | none => Except.ok [] := rfl
    rw [h, hsys]
    simp [hkd]
  · have h : dwp_string_to_context_entry "32BitSysDir" q
        = match q.system with
          | some system => Except.ok [LookupPathEntry.SystemDir system.sys_dir]
          | none => Except.ok [] := rfl
    rw [h, hsys]
  · have h : dwp_string_to_context_entry "OSDir" q
        = match q.system with
          | some system => Except.ok [LookupPathEntry.WindowsDir system.win_dir]
          | none => Except.ok [] := rfl
    rw [h, hsys]
  · have h : dwp_string_to_context_entry "SysPath" q
        = match q.system.bind (fun sys => sys.system_path) with
          | some path => Except.ok (path.map LookupPathEntry.UserPath)
          | none => Except.ok [] := rfl
    rw [h, hsys]
    simp [hsp]
  · intro p
    show (if ("UserDir " ++ p) = "SxS" then Except.ok []
      else if ("UserDir " ++ p) = "KnownDLLs" then
        match q.system.bind (fun sys => sys.known_dlls) with
        | some kd => Except.ok [LookupPathEntry.KnownDLLs kd]
        | none => Except.ok []
      else if ("UserDir " ++ p) = "AppDir" then
        Except.ok [LookupPathEntry.ExecutableDir q.target.app_dir]
      else if ("UserDir " ++ p) = "32BitSysDir" then
        match q.system with
        | some system => Except.ok [LookupPathEntry.SystemDir system.sys_dir]
        | none => Except.ok []
      else if ("UserDir " ++ p) = "16BitSysDir" then Except.ok []
      else if ("UserDir " ++ p) = "OSDir" then
        match q.system with
        | some system => Except.ok [LookupPathEntry.WindowsDir system.win_dir]
        | none => Except.ok []
      else if ("UserDir " ++ p) = "AppPath" then Except.ok []
      else if ("UserDir " ++ p) = "SysPath" then
        match q.system.bind (fun sys => sys.system_path) with
        | some path => Except.ok (path.map LookupPathEntry.UserPath)
        | none => Except.ok []
      else if "UserDir ".data.isPrefixOf ("UserDir " ++ p).data then
        Except.ok [LookupPathEntry.UserPath (String.mk (("UserDir " ++ p).data.drop 8))]
      else Except.error (LookupError.ParseError ("Unknown key in dwp file: " ++ ("UserDir " ++ p))))
      = Except.ok [LookupPathEntry.UserPath p]
    rw [if_neg (userdir_append_ne p "SxS" 'S' ['x', 'S'] rfl (by decide)),
      if_neg (userdir_append_ne p "KnownDLLs" 'K'
        ['n', 'o', 'w', 'n', 'D', 'L', 'L', 's'] rfl (by decide)),
      if_neg (userdir_append_ne p "AppDir" 'A' ['p', 'p', 'D', 'i', 'r'] rfl (by decide)),
      if_neg (userdir_append_ne p "32BitSysDir" '3'
        ['2', 'B', 'i', 't', 'S', 'y', 's', 'D', 'i', 'r'] rfl (by decide)),
      if_neg (userdir_append_ne p "16BitSysDir" '1'
        ['6', 'B', 'i', 't', 'S', 'y', 's', 'D', 'i', 'r'] rfl (by decide)),
      if_neg (userdir_append_ne p "OSDir" 'O' ['S', 'D', 'i', 'r'] rfl (by decide)),
      if_neg (userdir_append_ne p "AppPath" 'A' ['p', 'p', 'P', 'a', 't', 'h'] rfl (by decide)),
      if_neg (userdir_append_ne p "SysPath" 'S' ['y', 's', 'P', 'a', 't', 'h'] rfl (by decide)),
      if_pos (by simp [List.isPrefixOf])]
    rfl
  · intro s c cs hdata hcomment htok hpre
    have hchain : dwp_string_to_context_entry s q
        = if dwpCommentChars.contains c then Except.ok []
          else if s = "SxS" then Except.ok []
          else if s = "KnownDLLs" then
            match q.system.bind (fun sys => sys.known_dlls) with
            | some kd => Except.ok [LookupPathEntry.KnownDLLs kd]
            | none => Except.ok []
          else if s = "AppDir" then
            Except.ok [LookupPathEntry.ExecutableDir q.target.app_dir]
          else if s = "32BitSysDir" then
            match q.system with
            | some system => Except.ok [LookupPathEntry.SystemDir system.sys_dir]
            | none => Except.ok []
          else if s = "16BitSysDir" then Except.ok []
          else if s = "OSDir" then
            match q.system with
            | some system => Except.ok [LookupPathEntry.WindowsDir system.win_dir]
            | none => Except.ok []
          else if s = "AppPath" then Except.ok []
          else if s = "SysPath" then
            match q.system.bind (fun sys => sys.system_path) with
            | some path => Except.ok (path.map LookupPathEntry.UserPath)
            | none => Except.ok []
          else if "UserDir ".data.isPrefixOf s.data then
            Except.ok [LookupPathEntry.UserPath (String.mk (s.data.drop 8))]
          else Except.error (LookupError.ParseError ("Unknown key in dwp file: " ++ s)) := by
      unfold dwp_string_to_context_entry
      rw [hdata]
    simp only [List.mem_cons, List.mem_singleton, not_or] at htok
    rw [hchain, hcomment, if_neg htok.1, if_neg htok.2.1, if_neg htok.2.2.1,
      if_neg htok.2.2.2.1, if_neg htok.2.2.2.2.1, if_neg htok.2.2.2.2.2.1,
      if_neg htok.2.2.2.2.2.2.1, if_neg htok.2.2.2.2.2.2.2.1, hpre]
    simp

/-- Witness for `dwp_token_mapping`, instantiated at the concrete query
`q6` (whose descriptor provides a KnownDLLs table and a system PATH). -/
theorem dwp_token_mapping_witness :
    dwp_string_to_context_entry "SysPath" q6
      = .ok (["C:/sysp"].map LookupPathEntry.UserPath) :=
  (dwp_token_mapping q6 sys6
    [("kernel32.dll", "C:/Windows/System32/kernel32.dll")] ["C:/sysp"]
    rfl rfl rfl).2.2.2.2.1

/-- A directory entry as seen by `fs::read_dir`: a file name and whether the
entry's metadata says it is a regular file. -/
structure DirEntryM where
  name : String
  is_file : Bool
  deriving Repr, DecidableEq

/-- The filesystem oracle: `fs::read_dir` either lists a directory's entries
or fails (permission denied, non-existent directory). -/
structure FsOracle where
  read_dir : String → Except String (List DirEntryM)

/-- A cached directory listing: lowercased file name → actual on-disk name
(system.rs `HashMap<String, PathBuf>` per directory). -/
abbrev DirListing := List (String × String)

/-- `WinFileSystemCache` (system.rs lines 189-191). -/
structure WinFileSystemCache where
  files_in_dirs : List (String × DirListing)
  deriving Repr, DecidableEq

/-- Result of a cache operation: the returned value, the updated cache, and
a ghost flag recording whether `fs::read_dir` was invoked by this call. -/
structure ProbeOutcome (α : Type) where
  result : Except LookupError α
  cache : WinFileSystemCache
  enumerated : Bool
  deriving Repr

/-- `Path::join` for the string path model. -/
def joinPath (a b : String) : String := a ++ "/" ++ b

/-- `WinFileSystemCache::scan_folder` (system.rs lines 229-254): on a vacant
cache entry, enumerate the directory once, keep only regular files, and map
lowercased names to on-disk names; a `read_dir` failure propagates via `?`
and — crucially — inserts nothing into the cache. -/
def scan_folder (fs : FsOracle) (c : WinFileSystemCache) (folder : String) :
    ProbeOutcome Unit :=
  if (c.files_in_dirs.lookup folder).isSome then ⟨.ok (), c, false⟩
  else
    match fs.read_dir folder with
    | .error e => ⟨.error (.IOError e), c, true⟩
    | .ok entries =>
      let listing : DirListing :=
        (entries.filter (fun en => en.is_file)).map
          (fun en => (toLowerStr en.name, en.name))
      ⟨.ok (), ⟨c.files_in_dirs ++ [(folder, listing)]⟩, true⟩

/-- `WinFileSystemCache::test_file_in_folder_case_insensitive` (system.rs
lines 200-227): scan the folder if it is not cached yet, then answer the
case-insensitive probe from the cached listing. -/
def test_file_in_folder_case_insensitive (fs : FsOracle)
    (c : WinFileSystemCache) (filename folder : String) :
    ProbeOutcome (Option String) :=
  let scanned :=
    if (c.files_in_dirs.lookup folder).isSome then
      ProbeOutcome.mk (.ok ()) c false
    else scan_folder fs c folder
  match scanned.result with
  | .error e => ⟨.error e, scanned.cache, scanned.enumerated⟩
  | .ok () =>
    match scanned.cache.files_in_dirs.lookup folder with
    | none =>
      ⟨.error (.ScanError ("Could not scan directory " ++ folder)),
        scanned.cache, scanned.enumerated⟩
    | some dir =>
      ⟨.ok ((dir.lookup (toLowerStr filename)).map (fun p => joinPath folder p)),
        scanned.cache, scanned.enumerated⟩

/-- A filesystem in which enumerating `C:/locked` always fails. -/
def fs7 : FsOracle :=
  ⟨fun d => if d = "C:/locked" then .error "permission denied" else .ok []⟩

/-- C7 counterexample: probing a file in the unreadable directory
`C:/locked` fails, leaves the cache unchanged, and the *second* probe of the
same directory re-attempts the enumeration (`enumerated = true` again) —
the claim states the enumeration is not re-attempted. -/
theorem fs_cache_retries_failed_scan :
    (test_file_in_folder_case_insensitive fs7 ⟨[]⟩ "a.dll" "C:/locked").result
      = .error (.IOError "permission denied")
    ∧ (test_file_in_folder_case_insensitive fs7 ⟨[]⟩ "a.dll" "C:/locked").enumerated = true
    ∧ (test_file_in_folder_case_insensitive fs7
        (test_file_in_folder_case_insensitive fs7 ⟨[]⟩ "a.dll" "C:/locked").cache
        "a.dll" "C:/locked").enumerated = true := by
  exact ⟨rfl, rfl, rfl⟩

/-- C7 amended: a failed directory enumeration surfaces as an error on every
probe and *is* re-attempted on each subsequent probe of the same directory,
because only successful enumerations are inserted into the cache: on a miss
with failing `read_dir` the probe errors, enumerates, and leaves the cache
unchanged (so the situation repeats); once a directory is cached, a probe
never enumerates again and never changes the cache. -/
theorem fs_cache_failure_and_success_behaviour (fs : FsOracle)
    (c : WinFileSystemCache) (filename folder : String) (e : String)
    (hmiss : c.files_in_dirs.lookup folder = none)
    (herr : fs.read_dir folder = .error e) :
    (test_file_in_folder_case_insensitive fs c filename folder).result
      = .error (.IOError e)
    ∧ (test_file_in_folder_case_insensitive fs c filename folder).cache = c
    ∧ (test_file_in_folder_case_insensitive fs c filename folder).enumerated = true
    ∧ (∀ (c2 : WinFileSystemCache) (f2 : String),
        (c2.files_in_dirs.lookup folder).isSome = true →
        (test_file_in_folder_case_insensitive fs c2 f2 folder).enumerated = false
        ∧ (test_file_in_folder_case_insensitive fs c2 f2 folder).cache = c2) := by
  refine ⟨?_, ?_, ?_, ?_⟩
  · unfold test_file_in_folder_case_insensitive scan_folder
    simp [hmiss, herr]
  · unfold test_file_in_folder_case_insensitive scan_folder
    simp [hmiss, herr]
  · unfold test_file_in_folder_case_insensitive scan_folder
    simp [hmiss, herr]
  · intro c2 f2 hhit
    unfold test_file_in_folder_case_insensitive
    rw [if_pos hhit]
    rcases Option.isSome_iff_exists.mp hhit with ⟨dir, hdir⟩
    simp [hdir]

/-- Witness for `fs_cache_failure_and_success_behaviour` at the concrete
filesystem `fs7` and the empty cache. -/
theorem fs_cache_failure_witness :
    (test_file_in_folder_case_insensitive fs7 ⟨[]⟩ "b.dll" "C:/locked").cache = ⟨[]⟩ :=
  (fs_cache_failure_and_success_behaviour fs7 ⟨[]⟩ "b.dll" "C:/locked"
    "permission denied" rfl rfl).2.1

/-- `LookupResult` (path.rs lines 60-63). -/
structure LookupResult where
  location : LookupPathEntry
  fullpath : String
  deriving Repr, DecidableEq

/-- The loop body of `LookupPath::search_dll` (path.rs lines 236-285),
iterating over the remaining entries while carrying the full entry list
(needed by the ApiSet arm, which searches `self.entries` for the first
`SystemDir`) and threading the filesystem cache. -/
def search_dll_go (fs : FsOracle) (full : List LookupPathEntry)
    (library : String) :
    List LookupPathEntry → WinFileSystemCache →
      Except LookupError (Option LookupResult) × WinFileSystemCache
  | [], c => (.ok none, c)
  | e :: rest, c =>
    match e with
    | .KnownDLLs kd =>
      -- KnownDLLList::search_dll_in_known_dlls (system.rs lines 25-32)
      match kd.lookup (toLowerStr library) with
      | some lp => (.ok (some ⟨.KnownDLLs kd, lp⟩), c)
      | none => search_dll_go fs full library rest c
    | .ApiSet apis =>
      let apiset_name := trim_end_matches (toLowerStr library) ".dll"
      if (apis.lookup apiset_name).isSome then
        match full.find? (fun en => en.isSystemDir) with
        | some system32_dir =>
          let pr := test_file_in_folder_case_insensitive fs c library
            (joinPath (system32_dir.get_path.getD "") "downlevel")
          (pr.result.map (fun po => po.map
            (fun p => LookupResult.mk (.ApiSet apis) p)), pr.cache)
        | none => search_dll_go fs full library rest c
      else search_dll_go fs full library rest c
    | .ExecutableDir p | .SystemDir p | .WindowsDir p
    | .WorkingDir p | .SystemPath p | .UserPath p =>
      let pr := test_file_in_folder_case_insensitive fs c library p
      match pr.result with
      | .error err => (.error err, pr.cache)
      | .ok (some r) => (.ok (some ⟨e, r⟩), pr.cache)
      | .ok none => search_dll_go fs full library rest pr.cache

/-- `LookupPath::search_dll` (path.rs lines 236-285). -/
def search_dll (fs : FsOracle) (entries : List LookupPathEntry)
    (c : WinFileSystemCache) (library : String) :
    Except LookupError (Option LookupResult) × WinFileSystemCache :=
  search_dll_go fs entries library entries c

/-- C10: when the lookup path starts with an ApiSet entry whose map contains
the queried name's lowercased base name, and the first SystemDir entry of the
path is `sysd`, a miss of the physical file in `sysd/downlevel` makes
`search_dll` return `None` immediately: whatever entries follow the ApiSet
entry (`post` is universally quantified), they are never probed, so a
same-named file present in a later directory entry is never found. -/
theorem apiset_entry_shortcircuits_search (fs : FsOracle) (am : ApisetMap)
    (post : List LookupPathEntry) (sysd : String) (c : WinFileSystemCache)
    (library : String)
    (hfind : (LookupPathEntry.ApiSet am :: post).find?
        (fun en => en.isSystemDir) = some (.SystemDir sysd))
    (hmem : (am.lookup (trim_end_matches (toLowerStr library) ".dll")).isSome = true)
    (hmiss : (test_file_in_folder_case_insensitive fs c library
        (joinPath sysd "downlevel")).result = .ok none) :
    (search_dll fs (LookupPathEntry.ApiSet am :: post) c library).1 = .ok none := by
  simp only [search_dll, search_dll_go]
  rw [if_pos hmem, hfind]
  simp [LookupPathEntry.get_path, hmiss, Except.map]

/-- A filesystem where `lib.dll` exists in `C:/u` but the `downlevel`
directory under the system directory is empty. -/
def fs10 : FsOracle :=
  ⟨fun d =>
    if d = "C:/u" then .ok [⟨"lib.dll", true⟩]
    else .ok []⟩

/-- Witness for `apiset_entry_shortcircuits_search`: the lookup path
`[ApiSet, SystemDir C:/w/s32, UserPath C:/u]` with `lib` in the API-Set map
yields `None` for `lib.dll`, although probing `C:/u` directly would find the
file. -/
theorem apiset_shortcircuit_witness :
    (search_dll fs10
      [LookupPathEntry.ApiSet [("lib", ["host.dll"])],
       LookupPathEntry.SystemDir "C:/w/s32",
       LookupPathEntry.UserPath "C:/u"] ⟨[]⟩ "lib.dll").1 = .ok none
    ∧ (test_file_in_folder_case_insensitive fs10 ⟨[]⟩ "lib.dll" "C:/u").result
        = .ok (some "C:/u/lib.dll") :=
  ⟨apiset_entry_shortcircuits_search fs10 [("lib", ["host.dll"])]
      [LookupPathEntry.SystemDir "C:/w/s32", LookupPathEntry.UserPath "C:/u"]
      "C:/w/s32" ⟨[]⟩ "lib.dll" (by decide) (by decide) (by decide),
    by decide⟩

/-- `ExecutableSymbols` (executable.rs lines 43-48), with sets and maps as
lists. -/
structure ExecutableSymbols where
  exported : List String
  imported : List (String × List String)
  deriving Repr, DecidableEq

/-- `ExecutableDetails` (executable.rs lines 26-39). -/
structure ExecutableDetails where
  is_api_set : Bool
  is_system : Bool
  is_known_dll : Bool
  full_path : String
  dependencies : Option (List String)
  symbols : Option ExecutableSymbols
  deriving Repr, DecidableEq

/-- `Executable` (executable.rs lines 13-22). -/
structure Executable where
  dllname : String
  depth_first_appearance : Nat
  found : Bool
  details : Option ExecutableDetails
  deriving Repr, DecidableEq

/-- `Executables` (executable.rs lines 87-89): the index maps lowercased
dll names to records; modelled as an association list in insertion order. -/
structure Executables where
  index : List (String × Executable)
  deriving Repr, DecidableEq

/-- `Executables::get` (executable.rs lines 112-114). -/
def Executables.get (g : Executables) (dllname : String) : Option Executable :=
  g.index.lookup (toLowerStr dllname)

/-- `Executables::contains` (executable.rs lines 116-118). -/
def Executables.contains (g : Executables) (dllname : String) : Bool :=
  (g.index.lookup (toLowerStr dllname)).isSome

/-- `Executables::insert` (executable.rs lines 153-171): insert-if-absent
keyed by the lowercased name; a duplicate emits a diagnostic and leaves the
earlier record intact. -/
def Executables.insert (g : Executables) (new_exe : Executable) : Executables :=
  if (g.get new_exe.dllname).isSome then g
  else ⟨g.index ++ [(toLowerStr new_exe.dllname, new_exe)]⟩

/-- `Executables::get_root` (executable.rs lines 121-143): `None` on the
empty graph, an error when there are zero or several depth-0 records,
otherwise the unique depth-0 record. -/
def Executables.get_root (g : Executables) :
    Except LookupError (Option Executable) :=
  if g.index.isEmpty then .ok none
  else
    let root_candidates :=
      (g.index.map Prod.snd).filter (fun v => v.depth_first_appearance == 0)
    if root_candidates.isEmpty then
      .error (.ScanError "The executable tree has no roots")
    else if 1 < root_candidates.length then
      .error (.ScanError "The executable tree has multiple roots")
    else .ok root_candidates.head?

/-- `Executables::get_notfound_children` (executable.rs lines 247-275): a
not-found record returns itself; a found record collects the not-found
children of its resolvable dependencies (a `flat_map` over the dependency
names, here a `foldr`; dependencies without a record contribute nothing) and
appends itself when that collection is non-empty.  The Rust recursion has no
cycle protection, so the model carries fuel (recursion depth); `none` models
the unbounded descent. -/
def get_notfound_children (g : Executables) :
    Nat → Executable → Option (List Executable)
  | 0, _ => none
  | fuel + 1, e =>
    if e.found = false then some [e]
    else
      match e.details with
      | some details =>
        match details.dependencies with
        | some dependencies =>
          match
            dependencies.foldr
              (fun d acc =>
                match (match g.get d with
                       | some c => get_notfound_children g fuel c
                       | none => some []) with
                | none => none
                | some l =>
                  match acc with
                  | none => none
                  | some ls => some (l ++ ls))
              (some []) with
          | none => none
          | some collected =>
            if collected.isEmpty then some collected
            else some (collected ++ [e])
        | none => some []
      | none => some []

/-- `Executables::filter_only_notfound` (executable.rs lines 277-287). -/
def filter_only_notfound (g : Executables) (fuel : Nat) :
    Option (Except LookupError Executables) :=
  match g.get_root with
  | .error e => some (.error e)
  | .ok none => some (.ok ⟨[]⟩)
  | .ok (some root) =>
    match get_notfound_children g fuel root with
    | none => none
    | some l => some (.ok (l.foldl (fun acc e => acc.insert e) ⟨[]⟩))

/-- A found root whose dependency list is empty. -/
def rootRec : Executable :=
  { dllname := "root.exe", depth_first_appearance := 0, found := true,
    details := some
      { is_api_set := false, is_system := false, is_known_dll := false,
        full_path := "C:/app/root.exe", dependencies := some [],
        symbols := none } }

/-- A not-found record that no dependency edge reaches. -/
def missRec : Executable :=
  { dllname := "miss.dll", depth_first_appearance := 3, found := false,
    details := none }

/-- A graph holding both records. -/
def g8 : Executables := ((Executables.mk []).insert rootRec).insert missRec

/-- C8 counterexample: `g8` contains the not-found module `miss.dll`, yet
`filter_only_notfound` returns the empty graph — which neither contains
`miss.dll` (refuting the membership iff as stated, since `miss.dll` is
not reachable from the root) nor has the original root (refuting root
preservation: the original root exists, the filtered root is `None`). -/
theorem filter_only_notfound_counterexample :
    filter_only_notfound g8 5 = some (.ok ⟨[]⟩)
    ∧ g8.contains "miss.dll" = true
    ∧ (g8.get "miss.dll").map (fun e => e.found) = some false
    ∧ g8.get_root = .ok (some rootRec)
    ∧ (Executables.mk []).get_root = .ok none := by
  exact ⟨rfl, rfl, rfl, rfl, rfl⟩

/-- The record values stored in the graph index. -/
def Executables.vals (g : Executables) : List Executable :=
  g.index.map Prod.snd

/-- An in-graph dependency edge: `a`'s details list a dependency name `d`
that the graph resolves to the record `b`. -/
def DepEdge (g : Executables) (a b : Executable) : Prop :=
  ∃ det deps d, a.details = some det ∧ det.dependencies = some deps
    ∧ d ∈ deps ∧ g.get d = some b

/-- `b` is a descendant of `a` through zero or more dependency edges. -/
abbrev Reaches (g : Executables) : Executable → Executable → Prop :=
  Relation.ReflTransGen (DepEdge g)

/-- The claim's membership predicate for `filter_only_notfound`: the module
is not-found, or has a not-found descendant through the dependency edges. -/
def HasNotfoundDesc (g : Executables) (m : Executable) : Prop :=
  ∃ b, Reaches g m b ∧ b.found = false

/-- An association-list lookup hit yields a stored value. -/
theorem lookup_val_mem {β : Type} (l : List (String × β)) (k : String) (v : β)
    (h : l.lookup k = some v) : v ∈ l.map Prod.snd := by
  induction l with
  | nil => simp [List.lookup] at h
  | cons p t ihh =>
    rw [List.lookup] at h
    by_cases hk : k == p.1
    · rw [hk] at h
      simp at h
      simp [h]
    · rw [Bool.not_eq_true] at hk
      rw [hk] at h
      simp [ihh h]

/-- An association-list lookup hit yields a stored pair. -/
theorem lookup_pair_mem {β : Type} (l : List (String × β)) (k : String) (v : β)
    (h : l.lookup k = some v) : (k, v) ∈ l := by
  induction l with
  | nil => simp [List.lookup] at h
  | cons p t ihh =>
    rw [List.lookup] at h
    by_cases hk : k == p.1
    · rw [hk] at h
      simp at h
      have hk2 : k = p.1 := by
        have := of_decide_eq_true hk
        exact this
      exact List.mem_cons.mpr (Or.inl (Prod.ext hk2 h.symm))
    · rw [Bool.not_eq_true] at hk
      rw [hk] at h
      exact List.mem_cons_of_mem _ (ihh h)

/-- A failed association-list lookup means the key is absent. -/
theorem lookup_none_not_mem {β : Type} (l : List (String × β)) (k : String)
    (h : l.lookup k = none) : k ∉ l.map Prod.fst := by
  induction l with
  | nil => simp
  | cons p t ihh =>
    rw [List.lookup] at h
    by_cases hk : k == p.1
    · rw [hk] at h
      simp at h
    · rw [Bool.not_eq_true] at hk
      rw [hk] at h
      have hk2 : ¬ k = p.1 := by
        intro he
        rw [he] at hk
        simp at hk
      simp [hk2, ihh h]

/-- In a list with nodup keys, a key determines the stored value. -/
theorem nodup_keys_value_eq {β : Type} (l : List (String × β)) (k : String)
    (a b : β) (hnd : (l.map Prod.fst).Nodup)
    (ha : (k, a) ∈ l) (hb : (k, b) ∈ l) : a = b := by
  induction l with
  | nil => simp at ha
  | cons p t ihh =>
    rw [List.map_cons, List.nodup_cons] at hnd
    rcases List.mem_cons.mp ha with ha1 | ha1
    · rcases List.mem_cons.mp hb with hb1 | hb1
      · exact congrArg Prod.snd (ha1.trans hb1.symm)
      · exfalso
        apply hnd.1
        rw [← show (k, a).1 = p.1 from congrArg Prod.fst ha1]
        exact List.mem_map.mpr ⟨(k, b), hb1, rfl⟩
    · rcases List.mem_cons.mp hb with hb1 | hb1
      · exfalso
        apply hnd.1
        rw [← show (k, b).1 = p.1 from congrArg Prod.fst hb1]
        exact List.mem_map.mpr ⟨(k, a), ha1, rfl⟩
      · exact ihh hnd.2 ha1 hb1

/-- The target of a dependency edge is stored in the graph. -/
theorem depedge_target_mem (g : Executables) (a b : Executable)
    (h : DepEdge g a b) : b ∈ g.vals := by
  obtain ⟨det, deps, d, _, _, _, hget⟩ := h
  exact lookup_val_mem _ _ _ hget

/-- Everything reachable from a stored record is stored. -/
theorem reaches_mem (g : Executables) {e m : Executable}
    (he : e ∈ g.vals) (h : Reaches g e m) : m ∈ g.vals := by
  induction h with
  | refl => exact he
  | tail _ edge ih => exact depedge_target_mem g _ _ edge

/-- In a list without duplicates, a predicate that holds exactly at one
member filters to the singleton of that member. -/
theorem filter_eq_single {α : Type} (p : α → Bool) (l : List α) (r : α)
    (hnd : l.Nodup) (hr : r ∈ l) (hp : p r = true)
    (honly : ∀ x ∈ l, p x = true → x = r) : l.filter p = [r] := by
  induction l with
  | nil => simp at hr
  | cons x t ihh =>
    rw [List.nodup_cons] at hnd
    rcases List.mem_cons.mp hr with h1 | h1
    · subst h1
      rw [List.filter_cons_of_pos hp]
      have : t.filter p = [] := by
        apply List.filter_eq_nil_iff.mpr
        intro a ha hpa
        exact hnd.1 (honly a (List.mem_cons_of_mem _ ha) hpa ▸ ha)
      rw [this]
    · have hx : p x = false := by
        by_contra hc
        rw [Bool.not_eq_false] at hc
        exact hnd.1 ((honly x (List.mem_cons_self _ _) hc) ▸ h1)
      rw [List.filter_cons_of_neg (by simp [hx])]
      exact ihh hnd.2 h1 (fun a ha hpa => honly a (List.mem_cons_of_mem _ ha) hpa)

/-- Characterization of `get_notfound_children` on an acyclic (witnessed by
the rank function `rk`) graph whose not-found records carry no details: with
enough fuel it returns exactly the modules reachable from `e` that are
not-found or have a not-found descendant. -/
theorem gnc_char (g : Executables) (rk : Executable → Nat)
    (hrk : ∀ a ∈ g.vals, ∀ b, DepEdge g a b → rk b < rk a)
    (hdet : ∀ m ∈ g.vals, m.found = false → m.details = none) :
    ∀ fuel : Nat, ∀ e ∈ g.vals, rk e < fuel →
      ∃ l, get_notfound_children g fuel e = some l
        ∧ ∀ m, (m ∈ l ↔ (Reaches g e m ∧ HasNotfoundDesc g m)) := by
  intro fuel
  induction fuel with
  | zero => intro e _ hlt; omega
  | succ fuel ih =>
    intro e he hlt
    by_cases hf : e.found = false
    · refine ⟨[e], by simp [get_notfound_children, hf], ?_⟩
      intro m
      constructor
      · intro hm
        rw [List.mem_singleton] at hm
        subst hm
        exact ⟨Relation.ReflTransGen.refl, m, Relation.ReflTransGen.refl, hf⟩
      · rintro ⟨hre, _⟩
        rcases Relation.ReflTransGen.cases_head hre with h1 | ⟨c, hedge, _⟩
        · simp [h1]
        · obtain ⟨det, deps, d, hdet2, _, _, _⟩ := hedge
          rw [hdet e he hf] at hdet2
          exact absurd hdet2 (by simp)
    · rw [Bool.not_eq_false] at hf
      have no_edge_no_nf : e.details = none →
          ∀ m, ¬ (Reaches g e m ∧ HasNotfoundDesc g m) := by
        intro hdetails m ⟨hre, hnf⟩
        rcases Relation.ReflTransGen.cases_head hre with h1 | ⟨c, hedge, _⟩
        · obtain ⟨b, hrb, hbf⟩ := hnf
          rw [← h1] at hrb
          rcases Relation.ReflTransGen.cases_head hrb with h2 | ⟨c, hedge, _⟩
          · rw [← h2, hf] at hbf
            simp at hbf
          · obtain ⟨det, deps, d, hdet2, _⟩ := hedge
            rw [hdetails] at hdet2
            exact absurd hdet2 (by simp)
        · obtain ⟨det, deps, d, hdet2, _⟩ := hedge
          rw [hdetails] at hdet2
          exact absurd hdet2 (by simp)
      cases hdetails : e.details with
      | none =>
        refine ⟨[], by simp [get_notfound_children, hf, hdetails], ?_⟩
        intro m
        simp only [List.not_mem_nil, false_iff]
        exact no_edge_no_nf hdetails m
      | some details =>
        have no_deps_no_nf : details.dependencies = none →
            ∀ m, ¬ (Reaches g e m ∧ HasNotfoundDesc g m) := by
          intro hdeps m ⟨hre, hnf⟩
          rcases Relation.ReflTransGen.cases_head hre with h1 | ⟨c, hedge, _⟩
          · obtain ⟨b, hrb, hbf⟩ := hnf
            rw [← h1] at hrb
            rcases Relation.ReflTransGen.cases_head hrb with h2 | ⟨c, hedge, _⟩
            · rw [← h2, hf] at hbf
              simp at hbf
            · obtain ⟨det, deps, d, hdet2, hdep2, _⟩ := hedge
              rw [hdetails] at hdet2
              rw [← Option.some.inj hdet2, hdeps] at hdep2
              exact absurd hdep2 (by simp)
          · obtain ⟨det, deps, d, hdet2, hdep2, _⟩ := hedge
            rw [hdetails] at hdet2
            rw [← Option.some.inj hdet2, hdeps] at hdep2
            exact absurd hdep2 (by simp)
        cases hdeps : details.dependencies with
        | none =>
          refine ⟨[], by simp [get_notfound_children, hf, hdetails, hdeps], ?_⟩
          intro m
          simp only [List.not_mem_nil, false_iff]
          exact no_deps_no_nf hdeps m
        | some dependencies =>
          have hfold : ∀ ds : List String, (∀ d ∈ ds, d ∈ dependencies) →
              ∃ collected,
                ds.foldr
                  (fun d acc =>
                    match (match g.get d with
                           | some c => get_notfound_children g fuel c
                           | none => some []) with
                    | none => none
                    | some l =>
                      match acc with
                      | none => none
                      | some ls => some (l ++ ls))
                  (some []) = some collected
                ∧ ∀ m, (m ∈ collected ↔ ∃ d ∈ ds, ∃ c, g.get d = some c
                    ∧ Reaches g c m ∧ HasNotfoundDesc g m) := by
            intro ds
            induction ds with
            | nil => exact fun _ => ⟨[], rfl, by simp⟩
            | cons d ds ihds =>
              intro hsub
              obtain ⟨cols, hcols, hcolsiff⟩ :=
                ihds (fun x hx => hsub x (List.mem_cons_of_mem _ hx))
              cases hget : g.get d with
              | none =>
                refine ⟨cols, ?_, ?_⟩
                · simp [List.foldr_cons, hcols, hget]
                · intro m
                  rw [hcolsiff m]
                  constructor
                  · rintro ⟨x, hx, hrest⟩
                    exact ⟨x, List.mem_cons_of_mem _ hx, hrest⟩
                  · rintro ⟨x, hx, c, hc, hrest⟩
                    rcases List.mem_cons.mp hx with h1 | h1
                    · rw [h1] at hc
                      rw [hget] at hc
                      exact absurd hc (by simp)
                    · exact ⟨x, h1, c, hc, hrest⟩
              | some c =>
                have hcv : c ∈ g.vals := lookup_val_mem _ _ _ hget
                have hedge : DepEdge g e c :=
                  ⟨details, dependencies, d, hdetails, hdeps,
                    hsub d (List.mem_cons_self _ _), hget⟩
                have hrkc : rk c < fuel := by
                  have := hrk e he c hedge
                  omega
                obtain ⟨lc, hlc, hlciff⟩ := ih c hcv hrkc
                refine ⟨lc ++ cols, ?_, ?_⟩
                · simp [List.foldr_cons, hcols, hget, hlc]
                · intro m
                  rw [List.mem_append, hlciff m, hcolsiff m]
                  constructor
                  · rintro (⟨hrm, hnf⟩ | ⟨x, hx, hrest⟩)
                    · exact ⟨d, List.mem_cons_self _ _, c, hget, hrm, hnf⟩
                    · exact ⟨x, List.mem_cons_of_mem _ hx, hrest⟩
                  · rintro ⟨x, hx, c2, hc2, hrm, hnf⟩
                    rcases List.mem_cons.mp hx with h1 | h1
                    · rw [h1, hget] at hc2
                      rw [← Option.some.inj hc2] at hrm
                      exact Or.inl ⟨hrm, hnf⟩
                    · exact Or.inr ⟨x, h1, c2, hc2, hrm, hnf⟩
          obtain ⟨collected, hcoll, hcolliff⟩ :=
            hfold dependencies (fun _ hx => hx)
          have hgnc : get_notfound_children g (fuel + 1) e =
              (if collected.isEmpty then some collected
               else some (collected ++ [e])) := by
            rw [get_notfound_children]
            rw [hf]
            simp only [Bool.true_eq_false, if_false, hdetails, hdeps, hcoll]
          by_cases hemp : collected.isEmpty
          · refine ⟨collected, by rw [hgnc, if_pos hemp], ?_⟩
            rw [List.isEmpty_iff] at hemp
            subst hemp
            intro m
            simp only [List.not_mem_nil, false_iff]
            intro ⟨hre, hnf⟩
            rcases Relation.ReflTransGen.cases_head hre with h1 | ⟨c, hedge, hrcm⟩
            · obtain ⟨b, hrb, hbf⟩ := hnf
              rw [← h1] at hrb
              rcases Relation.ReflTransGen.cases_head hrb with h2 | ⟨c, hedge, hrcb⟩
              · rw [← h2, hf] at hbf
                simp at hbf
              · obtain ⟨det, deps, d, hdet2, hdep2, hdmem, hget⟩ := hedge
                rw [hdetails] at hdet2
                have hdeq := Option.some.inj hdet2
                rw [← hdeq, hdeps] at hdep2
                have hdepeq := Option.some.inj hdep2
                have : b ∈ ([] : List Executable) := by
                  rw [hcolliff b]
                  exact ⟨d, hdepeq ▸ hdmem, c, hget, hrcb, b,
                    Relation.ReflTransGen.refl, hbf⟩
                simp at this
            · obtain ⟨det, deps, d, hdet2, hdep2, hdmem, hget⟩ := hedge
              rw [hdetails] at hdet2
              have hdeq := Option.some.inj hdet2
              rw [← hdeq, hdeps] at hdep2
              have hdepeq := Option.some.inj hdep2
              have : m ∈ ([] : List Executable) := by
                rw [hcolliff m]
                exact ⟨d, hdepeq ▸ hdmem, c, hget, hrcm, hnf⟩
              simp at this
          · refine ⟨collected ++ [e], by rw [hgnc, if_neg hemp], ?_⟩
            intro m
            rw [List.mem_append, List.mem_singleton, hcolliff m]
            constructor
            · rintro (⟨d, hd, c, hget, hrm, hnf⟩ | h1)
              · have hedge : DepEdge g e c :=
                  ⟨details, dependencies, d, hdetails, hdeps, hd, hget⟩
                exact ⟨Relation.ReflTransGen.head hedge hrm, hnf⟩
              · subst h1
                have hne : collected ≠ [] := by
                  intro hc
                  rw [hc] at hemp
                  simp at hemp
                obtain ⟨m1, hm1⟩ := List.exists_mem_of_ne_nil collected hne
                obtain ⟨d, hd, c, hget, hrm1, b, hrb, hbf⟩ :=
                  (hcolliff m1).mp hm1
                have hedge : DepEdge g m c :=
                  ⟨details, dependencies, d, hdetails, hdeps, hd, hget⟩
                refine ⟨Relation.ReflTransGen.refl, b, ?_, hbf⟩
                exact Relation.ReflTransGen.head hedge (hrm1.trans hrb)
            · rintro ⟨hre, hnf⟩
              rcases Relation.ReflTransGen.cases_head hre with h1 | ⟨c, hedge, hrcm⟩
              · exact Or.inr h1.symm
              · obtain ⟨det, deps, d, hdet2, hdep2, hdmem, hget⟩ := hedge
                rw [hdetails] at hdet2
                have hdeq := Option.some.inj hdet2
                rw [← hdeq, hdeps] at hdep2
                have hdepeq := Option.some.inj hdep2
                exact Or.inl ⟨d, hdepeq ▸ hdmem, c, hget, hrcm, hnf⟩

/-- What a successful `get_root` guarantees: the root is stored, has depth
0, and is the only stored record with depth 0. -/
theorem get_root_spec (g : Executables) (r : Executable)
    (h : g.get_root = .ok (some r)) :
    r ∈ g.vals ∧ r.depth_first_appearance = 0
    ∧ ∀ v ∈ g.vals, v.depth_first_appearance = 0 → v = r := by
  unfold Executables.get_root at h
  by_cases he : g.index.isEmpty
  · rw [if_pos he] at h
    simp at h
  · rw [if_neg he] at h
    simp only at h
    by_cases hce : ((g.index.map Prod.snd).filter
        (fun v => v.depth_first_appearance == 0)).isEmpty
    · rw [if_pos hce] at h
      simp at h
    · rw [if_neg hce] at h
      by_cases hlen : 1 < ((g.index.map Prod.snd).filter
          (fun v => v.depth_first_appearance == 0)).length
      · rw [if_pos hlen] at h
        simp at h
      · rw [if_neg hlen] at h
        simp only [Except.ok.injEq] at h
        have hcands : (g.index.map Prod.snd).filter
            (fun v => v.depth_first_appearance == 0) = [r] := by
          match hm : (g.index.map Prod.snd).filter
              (fun v => v.depth_first_appearance == 0) with
          | [] =>
            rw [hm] at hce
            simp at hce
          | [a] =>
            rw [hm] at h
            simp at h
            rw [hm, h]
          | a :: b :: t =>
            rw [hm] at hlen
            simp at hlen
        have hrmem : r ∈ (g.index.map Prod.snd).filter
            (fun v => v.depth_first_appearance == 0) := by
          rw [hcands]
          exact List.mem_singleton.mpr rfl
        have hrv := List.mem_of_mem_filter hrmem
        have hr0 : r.depth_first_appearance = 0 := by
          have := List.of_mem_filter hrmem
          simpa using this
        refine ⟨hrv, hr0, ?_⟩
        intro v hv hv0
        have : v ∈ (g.index.map Prod.snd).filter
            (fun v => v.depth_first_appearance == 0) := by
          apply List.mem_filter.mpr
          exact ⟨hv, by simp [hv0]⟩
        rw [hcands] at this
        exact List.mem_singleton.mp this

/-- With well-formed keys and no duplicate keys, the lowercased name
determines the stored record. -/
theorem vals_key_inj (g : Executables)
    (hkeys : ∀ kv ∈ g.index, kv.1 = toLowerStr kv.2.dllname)
    (hnd : (g.index.map Prod.fst).Nodup) :
    ∀ a ∈ g.vals, ∀ b ∈ g.vals,
      toLowerStr a.dllname = toLowerStr b.dllname → a = b := by
  intro a ha b hb hk
  obtain ⟨pa, hma, ha'⟩ := List.mem_map.mp ha
  obtain ⟨pb, hmb, hb'⟩ := List.mem_map.mp hb
  have hka := hkeys _ hma
  have hkb := hkeys _ hmb
  have hpa : pa = (toLowerStr a.dllname, a) := by
    cases pa
    simp at ha' hka ⊢
    rw [ha'] at hka ⊢
    exact ⟨hka, rfl⟩
  have hpb : pb = (toLowerStr a.dllname, b) := by
    cases pb
    simp at hb' hkb ⊢
    rw [hb'] at hkb ⊢
    rw [← hk] at hkb
    exact ⟨hkb, rfl⟩
  rw [hpa] at hma
  rw [hpb] at hmb
  exact nodup_keys_value_eq g.index (toLowerStr a.dllname) a b hnd hma hmb

/-- When every stored key is the image of its value, distinct keys give
distinct values. -/
theorem snd_nodup_of_fst_nodup {β : Type} (f : β → String)
    (l : List (String × β))
    (hkeys : ∀ kv ∈ l, kv.1 = f kv.2) (hnd : (l.map Prod.fst).Nodup) :
    (l.map Prod.snd).Nodup := by
  induction l with
  | nil => simp
  | cons p t ihh =>
    rw [List.map_cons, List.nodup_cons] at hnd ⊢
    refine ⟨?_, ihh (fun kv hkv => hkeys kv (List.mem_cons_of_mem _ hkv)) hnd.2⟩
    intro hmem
    obtain ⟨pv, hm2, hv2⟩ := List.mem_map.mp hmem
    apply hnd.1
    have h1 := hkeys p (List.mem_cons_self _ _)
    have h2 := hkeys _ (List.mem_cons_of_mem _ hm2)
    rw [List.mem_map]
    refine ⟨pv, hm2, ?_⟩
    rw [h2, hv2, ← h1]

/-- Folding `Executables::insert` over a list of records drawn from a
key-injective value set preserves well-formed keys and key nodup, and the
resulting stored values are exactly the accumulator's plus the list's. -/
theorem foldl_insert_facts (V : List Executable)
    (hinjV : ∀ a ∈ V, ∀ b ∈ V,
      toLowerStr a.dllname = toLowerStr b.dllname → a = b) :
    ∀ (l : List Executable) (acc : Executables),
      (∀ m ∈ l, m ∈ V) →
      (∀ kv ∈ acc.index, kv.1 = toLowerStr kv.2.dllname ∧ kv.2 ∈ V) →
      (acc.index.map Prod.fst).Nodup →
      (∀ kv ∈ (l.foldl (fun a e => a.insert e) acc).index,
          kv.1 = toLowerStr kv.2.dllname ∧ kv.2 ∈ V)
      ∧ ((l.foldl (fun a e => a.insert e) acc).index.map Prod.fst).Nodup
      ∧ ∀ m, (m ∈ (l.foldl (fun a e => a.insert e) acc).vals
          ↔ (m ∈ acc.vals ∨ m ∈ l)) := by
  intro l
  induction l with
  | nil =>
    intro acc _ hak hand
    refine ⟨hak, hand, ?_⟩
    simp
  | cons e t iht =>
    intro acc hlV hak hand
    rw [List.foldl_cons]
    by_cases hhit : (acc.get e.dllname).isSome
    · have hins : acc.insert e = acc := by
        unfold Executables.insert
        rw [if_pos hhit]
      rw [hins]
      obtain ⟨v, hv⟩ := Option.isSome_iff_exists.mp hhit
      have hvpair : (toLowerStr e.dllname, v) ∈ acc.index :=
        lookup_pair_mem _ _ _ hv
      have hvk := (hak _ hvpair).1
      have hvV := (hak _ hvpair).2
      have hev : v = e :=
        hinjV v hvV e (hlV e (List.mem_cons_self _ _)) hvk.symm
      have heacc : e ∈ acc.vals := by
        rw [← hev]
        exact lookup_val_mem _ _ _ hv
      obtain ⟨h1, h2, h3⟩ :=
        iht acc (fun m hm => hlV m (List.mem_cons_of_mem _ hm)) hak hand
      refine ⟨h1, h2, ?_⟩
      intro m
      rw [h3 m]
      constructor
      · rintro (h | h)
        · exact Or.inl h
        · exact Or.inr (List.mem_cons_of_mem _ h)
      · rintro (h | h)
        · exact Or.inl h
        · rcases List.mem_cons.mp h with h4 | h4
          · subst h4
            exact Or.inl heacc
          · exact Or.inr h4
    · have hins : acc.insert e = ⟨acc.index ++ [(toLowerStr e.dllname, e)]⟩ := by
        unfold Executables.insert
        rw [if_neg hhit]
      rw [hins]
      have hknotin : toLowerStr e.dllname ∉ acc.index.map Prod.fst := by
        apply lookup_none_not_mem
        have hconv : acc.index.lookup (toLowerStr e.dllname)
            = acc.get e.dllname := rfl
        rw [hconv]
        exact Option.not_isSome_iff_eq_none.mp (by simp [hhit])
      have hak' : ∀ kv ∈ (acc.index ++ [(toLowerStr e.dllname, e)]),
          kv.1 = toLowerStr kv.2.dllname ∧ kv.2 ∈ V := by
        intro kv hkv
        rcases List.mem_append.mp hkv with h | h
        · exact hak kv h
        · rw [List.mem_singleton] at h
          subst h
          exact ⟨rfl, hlV e (List.mem_cons_self _ _)⟩
      have hand' : ((acc.index ++ [(toLowerStr e.dllname, e)]).map
          Prod.fst).Nodup := by
        rw [List.map_append]
        simp [List.nodup_append, hand, hknotin]
      obtain ⟨h1, h2, h3⟩ := iht ⟨acc.index ++ [(toLowerStr e.dllname, e)]⟩
        (fun m hm => hlV m (List.mem_cons_of_mem _ hm)) hak' hand'
      refine ⟨h1, h2, ?_⟩
      intro m
      rw [h3 m]
      simp only [Executables.vals, List.map_append, List.mem_append,
        List.map_cons, List.map_nil, List.mem_singleton, List.mem_cons]
      tauto

/-- C8 amended: on a graph that is acyclic (witnessed by a rank function
decreasing along dependency edges), whose not-found records carry no
details, whose records are all reachable from the root, and whose index is
well-keyed without duplicate keys, `filter_only_notfound` succeeds (with
fuel above the root's rank) and returns a graph containing a module iff the
module is stored and is not-found or has a not-found descendant **reachable
through in-graph dependency edges**; the result keeps the original root
whenever some stored module is not-found, and is the empty graph — with no
root — when every stored module is found. -/
theorem filter_only_notfound_char (g : Executables) (rk : Executable → Nat)
    (root : Executable) (fuel : Nat)
    (hrk : ∀ a ∈ g.vals, ∀ b, DepEdge g a b → rk b < rk a)
    (hdet : ∀ m ∈ g.vals, m.found = false → m.details = none)
    (hroot : g.get_root = .ok (some root))
    (hreach : ∀ m ∈ g.vals, Reaches g root m)
    (hkeys : ∀ kv ∈ g.index, kv.1 = toLowerStr kv.2.dllname)
    (hnd : (g.index.map Prod.fst).Nodup)
    (hfuel : rk root < fuel) :
    ∃ res : Executables, filter_only_notfound g fuel = some (.ok res)
      ∧ (∀ m, m ∈ res.vals ↔ (m ∈ g.vals ∧ HasNotfoundDesc g m))
      ∧ ((∃ b ∈ g.vals, b.found = false) → res.get_root = .ok (some root))
      ∧ ((∀ b ∈ g.vals, b.found = true) → res = ⟨[]⟩) := by
  obtain ⟨hrm, hr0, hru⟩ := get_root_spec g root hroot
  obtain ⟨l, hl, hliff⟩ := gnc_char g rk hrk hdet fuel root hrm hfuel
  have hlV : ∀ m ∈ l, m ∈ g.vals := fun m hm =>
    reaches_mem g hrm ((hliff m).mp hm).1
  have hinj := vals_key_inj g hkeys hnd
  obtain ⟨hresk, hresnd, hresiff⟩ :=
    foldl_insert_facts g.vals hinj l ⟨[]⟩ hlV (by simp) (by simp)
  have hfres : filter_only_notfound g fuel
      = some (.ok (l.foldl (fun acc e => acc.insert e) ⟨[]⟩)) := by
    have hstep : filter_only_notfound g fuel
        = match get_notfound_children g fuel root with
          | none => none
          | some l => some (.ok (l.foldl (fun acc e => acc.insert e) ⟨[]⟩)) := by
      unfold filter_only_notfound
      rw [hroot]
    rw [hstep, hl]
  have hmemiff : ∀ m,
      m ∈ (l.foldl (fun acc e => acc.insert e) (⟨[]⟩ : Executables)).vals
        ↔ (m ∈ g.vals ∧ HasNotfoundDesc g m) := by
    intro m
    rw [hresiff m]
    constructor
    · rintro (h | h)
      · simp [Executables.vals] at h
      · exact ⟨hlV m h, ((hliff m).mp h).2⟩
    · rintro ⟨hmv, hnf⟩
      exact Or.inr ((hliff m).mpr ⟨hreach m hmv, hnf⟩)
  refine ⟨l.foldl (fun acc e => acc.insert e) ⟨[]⟩, hfres, hmemiff, ?_, ?_⟩
  · rintro ⟨b, hbv, hbf⟩
    have hrootres : root ∈ (l.foldl (fun acc e => acc.insert e)
        (⟨[]⟩ : Executables)).vals :=
      (hmemiff root).mpr ⟨hrm, b, hreach b hbv, hbf⟩
    have hvnd : (l.foldl (fun acc e => acc.insert e)
        (⟨[]⟩ : Executables)).vals.Nodup :=
      snd_nodup_of_fst_nodup (fun e => toLowerStr e.dllname) _
        (fun kv hkv => (hresk kv hkv).1) hresnd
    have hfilter : (l.foldl (fun acc e => acc.insert e)
        (⟨[]⟩ : Executables)).vals.filter
          (fun v => v.depth_first_appearance == 0) = [root] := by
      apply filter_eq_single _ _ _ hvnd hrootres (by simp [hr0])
      intro x hx hpx
      have hxv : x ∈ g.vals := ((hmemiff x).mp hx).1
      exact hru x hxv (by simpa using hpx)
    unfold Executables.get_root
    have hne : ¬ (l.foldl (fun acc e => acc.insert e)
        (⟨[]⟩ : Executables)).index.isEmpty = true := by
      intro hempty
      rw [List.isEmpty_iff] at hempty
      have h2 := hrootres
      rw [Executables.vals, hempty] at h2
      simp at h2
    rw [if_neg hne]
    simp only [show ∀ h : Executables, h.index.map Prod.snd = h.vals
      from fun _ => rfl]
    rw [hfilter]
    simp
  · intro hall
    have hempty : (l.foldl (fun acc e => acc.insert e)
        (⟨[]⟩ : Executables)).vals = [] := by
      by_contra hc
      obtain ⟨m, hm⟩ := List.exists_mem_of_ne_nil _ hc
      obtain ⟨hmv, b, hrb, hbf⟩ := (hmemiff m).mp hm
      have hbv : b ∈ g.vals := reaches_mem g hmv hrb
      rw [hall b hbv] at hbf
      simp at hbf
    cases hres : (l.foldl (fun acc e => acc.insert e)
        (⟨[]⟩ : Executables)) with
    | mk idx =>
      rw [hres] at hempty
      rw [Executables.vals] at hempty
      simp only [Executables.mk.injEq]
      exact List.map_eq_nil_iff.mp hempty

/-- The details record of `root9`. -/
def det9 : ExecutableDetails :=
  { is_api_set := false, is_system := false, is_known_dll := false,
    full_path := "C:/app/app.exe", dependencies := some ["lost.dll"],
    symbols := none }

/-- A found root depending on one missing DLL. -/
def root9 : Executable :=
  { dllname := "app.exe", depth_first_appearance := 0, found := true,
    details := some det9 }

/-- The missing dependency of `root9`. -/
def lost9 : Executable :=
  { dllname := "lost.dll", depth_first_appearance := 1, found := false,
    details := none }

/-- The two-record graph produced by a run on `root9`. -/
def g9 : Executables := ((Executables.mk []).insert root9).insert lost9

/-- A rank function decreasing along `g9`'s one dependency edge. -/
def rk9 : Executable → Nat := fun e => if e.found then 1 else 0

/-- Witness for `filter_only_notfound_char` at the concrete graph `g9`
(one found root, one not-found dependency). -/
theorem filter_only_notfound_char_witness :
    (filter_only_notfound g9 2).isSome = true := by
  have hvals : g9.vals = [root9, lost9] := rfl
  have hrk : ∀ a ∈ g9.vals, ∀ b, DepEdge g9 a b → rk9 b < rk9 a := by
    intro a ha b hedge
    rw [hvals] at ha
    obtain ⟨det, deps, d, hdet, hdeps, hd, hget⟩ := hedge
    rcases List.mem_cons.mp ha with h1 | h1
    · subst h1
      have hdeteq : det = det9 := by
        have h2 : root9.details = some det := hdet
        rw [show root9.details = some det9 from rfl] at h2
        exact (Option.some.inj h2).symm
      rw [hdeteq] at hdeps
      have hdepseq : deps = ["lost.dll"] := by
        have h3 : det9.dependencies = some ["lost.dll"] := rfl
        rw [h3] at hdeps
        exact (Option.some.inj hdeps).symm
      rw [hdepseq, List.mem_singleton] at hd
      subst hd
      have hb : b = lost9 := by
        have : g9.get "lost.dll" = some lost9 := rfl
        rw [this] at hget
        exact (Option.some.inj hget).symm
      subst hb
      decide
    · rw [List.mem_singleton] at h1
      subst h1
      have h2 : lost9.details = some det := hdet
      rw [show lost9.details = none from rfl] at h2
      exact absurd h2 (by simp)
  have hdet : ∀ m ∈ g9.vals, m.found = false → m.details = none := by
    intro m hm hf
    rw [hvals] at hm
    rcases List.mem_cons.mp hm with h1 | h1
    · subst h1
      simp [root9] at hf
    · rw [List.mem_singleton] at h1
      subst h1
      rfl
  have hreach : ∀ m ∈ g9.vals, Reaches g9 root9 m := by
    intro m hm
    rw [hvals] at hm
    rcases List.mem_cons.mp hm with h1 | h1
    · subst h1
      exact Relation.ReflTransGen.refl
    · rw [List.mem_singleton] at h1
      subst h1
      refine Relation.ReflTransGen.single ?_
      exact ⟨det9, ["lost.dll"], "lost.dll", rfl, rfl,
        List.mem_singleton.mpr rfl, rfl⟩
  have hkeys : ∀ kv ∈ g9.index, kv.1 = toLowerStr kv.2.dllname := by
    intro kv hkv
    have hidx : g9.index = [("app.exe", root9), ("lost.dll", lost9)] := rfl
    rw [hidx] at hkv
    rcases List.mem_cons.mp hkv with h1 | h1
    · subst h1
      rfl
    · rw [List.mem_singleton] at h1
      subst h1
      rfl
  obtain ⟨res, hres, _⟩ := filter_only_notfound_char g9 rk9 root9 2
    hrk hdet rfl hreach hkeys (by decide) (by decide)
  rw [hres]
  rfl

/-- What the `pe` reader functions return for one opened PE file, as the
runner observes them (`read_dll_name` collapsed to its `Option` since the
runner applies `unwrap_or`). -/
structure PEData where
  dll_name : Option String
  dependencies : Except LookupError (List String)
  exports : Except LookupError (List String)
  imports : Except LookupError (List (String × List String))

/-- The environment one resolver run interacts with: the lookup path's
`search_dll`, PE opening and parsing (`pelite::FileMap::open` plus
`PeFile::from_bytes` and the `pe` readers, collapsed into one oracle), and
the API-Set map held by the lookup path (runner.rs line 106). -/
structure RunnerEnv where
  search_dll : String → Except LookupError (Option LookupResult)
  open_pe : String → Except LookupError PEData
  apiset_map : Option ApisetMap

/-- `Job` (runner.rs lines 8-11). -/
structure Job where
  dllname : String
  depth : Nat
  deriving Repr, DecidableEq

/-- The runner's mutable state (runner.rs lines 15-20): the work queue and
the accumulated graph, plus two ghost logs recording every enqueue that
pushed a job and every dequeued job (they influence nothing). -/
structure RunnerState where
  executables_to_lookup : List Job
  executables_found : Executables
  enqueue_log : List (String × Nat)
  dequeue_log : List (String × Nat)

/-- `usize::MAX`. -/
def usizeMax : Nat := 2 ^ 64 - 1

/-- `depth + 1` on `usize` with wrap-around (Rust release semantics). -/
def wrapSucc (d : Nat) : Nat := (d + 1) % 2 ^ 64

/-- `Runner::enqueue` (runner.rs lines 34-41): push unless the graph already
contains the name; duplicates already sitting in the queue are allowed. -/
def enqueue (st : RunnerState) (executable_name : String) (depth : Nat) :
    RunnerState :=
  if st.executables_found.contains executable_name then st
  else
    { st with
      executables_to_lookup :=
        st.executables_to_lookup ++ [⟨executable_name, depth⟩],
      enqueue_log := st.enqueue_log ++ [(executable_name, depth)] }

/-- `Runner::pop` (runner.rs lines 44-46): `Vec::pop` removes the *last*
element — the queue is a LIFO stack. -/
def popJob (st : RunnerState) : Option (Job × RunnerState) :=
  match st.executables_to_lookup.getLast? with
  | none => none
  | some j =>
    some (j,
      { st with
        executables_to_lookup := st.executables_to_lookup.dropLast,
        dequeue_log := st.dequeue_log ++ [(j.dllname, j.depth)] })

/-- `Runner::register_finding` (runner.rs lines 49-69): insert-if-absent
(the diagnostic branch leaves the graph unchanged, as does
`Executables::insert` itself). -/
def register_finding (st : RunnerState) (new_finding : Executable) :
    RunnerState :=
  { st with executables_found := st.executables_found.insert new_finding }

/-- `search_dll(..).unwrap_or(None)` as the loop body sees it (runner.rs
lines 91-95): a lookup error short-circuits that single lookup to "not
found". -/
def effective_search (env : RunnerEnv) (n : String) : Option LookupResult :=
  match env.search_dll n with
  | .ok r => r
  | .error _ => none

/-- Dependency determination for a found module (runner.rs lines 105-118):
the API-Set map under the canonical name with `.dll` suffixes trimmed and
**no** lowercasing; `None` for system non-api-set modules; otherwise the
PE import table (whose read error propagates via `?`). -/
def compute_dependencies (env : RunnerEnv) (r : LookupResult)
    (dllname : String) (pefile : PEData) :
    Except LookupError (Option (List String)) :=
  if r.location.isApiSet then
    .ok (env.apiset_map.bind
      (fun am => am.lookup (trim_end_matches dllname ".dll")))
  else if r.location.is_system && !r.location.isApiSet then
    .ok none
  else
    pefile.dependencies.map some

/-- Symbol extraction (runner.rs lines 119-126): read exports and imports
(with `?`) unless the module is an API-Set entry or extraction is off. -/
def compute_symbols (q : LookupQuery) (r : LookupResult) (pefile : PEData) :
    Except LookupError (Option ExecutableSymbols) :=
  if !r.location.isApiSet && q.parameters.extract_symbols then
    match pefile.exports with
    | .error e => .error e
    | .ok exported =>
      match pefile.imports with
      | .error e => .error e
      | .ok imported => .ok (some ⟨exported, imported⟩)
  else .ok none

/-- Processing of a found module (runner.rs lines 96-145): open and parse
the PE with `?` (an error aborts the whole run), fall back to the queried
name when the export table gives no canonical name, determine dependencies
and symbols, enqueue each dependency at `depth + 1` (with `usize`
wrap-around), and insert the record — with `is_known_dll := false`, the
`// TODO` of runner.rs line 140. -/
def found_step (env : RunnerEnv) (q : LookupQuery) (st : RunnerState)
    (j : Job) (r : LookupResult) : Except LookupError RunnerState :=
  match env.open_pe r.fullpath with
  | .error e => .error e
  | .ok pefile =>
    let dllname := pefile.dll_name.getD j.dllname
    match compute_dependencies env r dllname pefile with
    | .error e => .error e
    | .ok dependencies =>
      match compute_symbols q r pefile with
      | .error e => .error e
      | .ok symbols =>
        let st1 :=
          match dependencies with
          | some deps =>
            deps.foldl (fun s d => enqueue s d (wrapSucc j.depth)) st
          | none => st
        .ok (register_finding st1
          { dllname := dllname, depth_first_appearance := j.depth,
            found := true,
            details := some
              { is_api_set := r.location.isApiSet,
                is_system := r.location.is_system,
                is_known_dll := false,
                full_path := r.fullpath, dependencies := dependencies,
                symbols := symbols } })

/-- The body of `Runner::run` for one dequeued job (runner.rs lines
86-154): the depth cap, the already-found check,
`search_dll(..).unwrap_or(None)`, then the found/not-found handling. -/
def runStep (env : RunnerEnv) (q : LookupQuery) (st : RunnerState)
    (j : Job) : Except LookupError RunnerState :=
  if j.depth ≤ q.parameters.max_depth.getD usizeMax then
    if st.executables_found.contains j.dllname then .ok st
    else
      match effective_search env j.dllname with
      | some r => found_step env q st j r
      | none =>
        .ok (register_finding st
          { dllname := j.dllname, depth_first_appearance := j.depth,
            found := false, details := none })
  else .ok st

/-- The `while let Some(..) = self.pop()` loop of `Runner::run`, with fuel;
`none` models running out of fuel (the loop not having finished). -/
def runLoop (env : RunnerEnv) (q : LookupQuery) :
    Nat → RunnerState → Option (Except LookupError RunnerState)
  | 0, _ => none
  | fuel + 1, st =>
    match popJob st with
    | none => some (.ok st)
    | some (j, st1) =>
      match runStep env q st1 j with
      | .error e => some (.error e)
      | .ok st2 => runLoop env q fuel st2

/-- `Path::file_name` on the string path model: the component after the last
`/`, none when that component is empty. -/
def file_name (p : String) : Option String :=
  let tail := (p.data.reverse.takeWhile (fun c => !(c == '/'))).reverse
  if tail.isEmpty then none else some (String.mk tail)

/-- `Runner::run` (runner.rs lines 71-158): resolve the target's file name,
enqueue it at depth 0, and drain the queue.  The final state stands for
`Ok(self.executables_found.clone())`; callers read `executables_found`. -/
def runR (env : RunnerEnv) (q : LookupQuery) (fuel : Nat) :
    Option (Except LookupError RunnerState) :=
  match file_name q.target.target_exe with
  | none =>
    some (.error (.ScanError ("could not open file " ++ q.target.target_exe)))
  | some filename =>
    runLoop env q fuel (enqueue ⟨[], ⟨[]⟩, [], []⟩ filename 0)

/-- The graph of a completed run. -/
def graph_of (r : Option (Except LookupError RunnerState)) :
    Option Executables :=
  match r with
  | some (.ok st) => some st.executables_found
  | _ => none

/-- The ghost enqueue log of a completed run. -/
def enqueue_log_of (r : Option (Except LookupError RunnerState)) :
    Option (List (String × Nat)) :=
  match r with
  | some (.ok st) => some st.enqueue_log
  | _ => none

/-- A query for the given target with default parameters and no system
descriptor (the runner takes the lookup path through `RunnerEnv`). -/
def mkQuery (target : String) : LookupQuery :=
  { system := none
    target := { target_exe := target, app_dir := "C:/a",
                working_dir := "C:/a", user_path := [] }
    parameters := { max_depth := none, skip_system_dlls := false,
                    extract_symbols := false } }

/-- An environment in which the target is located on disk but its bytes do
not parse as a PE file. -/
def env2 : RunnerEnv :=
  { search_dll := fun n =>
      if n = "app.exe" then
        .ok (some ⟨.ExecutableDir "C:/a", "C:/a/app.exe"⟩)
      else .ok none
    open_pe := fun _ => .error (.PEError "bad magic")
    apiset_map := none }

/-- C2 (evaluation at the failing input): when `search_dll` locates
`app.exe` but the PE file cannot be parsed, `Runner::run` propagates the
error with `?` and the whole run fails — no module is inserted as
`found = true` with `dependencies = None`, contrary to the claim (and to the
older `workqueue.rs` implementation, which degrades gracefully). -/
theorem runner_aborts_on_pe_error :
    runR env2 (mkQuery "C:/a/app.exe") 10
      = some (.error (.PEError "bad magic")) := rfl

/-- A KnownDLLs table holding `k32.dll`. -/
def kd9 : KnownDLLList := [("k32.dll", "C:/w/s32/k32.dll")]

/-- An environment that resolves `k32.dll` through the KnownDLLs entry. -/
def env9 : RunnerEnv :=
  { search_dll := fun n =>
      if n = "k32.dll" then
        .ok (some ⟨.KnownDLLs kd9, "C:/w/s32/k32.dll"⟩)
      else .ok none
    open_pe := fun _ => .ok ⟨some "k32.dll", .ok [], .ok [], .ok []⟩
    apiset_map := none }

/-- C9 (evaluation at the failing input): a module resolved at the KnownDLLs
entry gets `is_system = L.is_system() = true` and `is_api_set = false` as
the claim states, but `is_known_dll = false` even though `L` *is* the
KnownDLLs entry — runner.rs line 140 hard-codes `is_known_dll: false,
// TODO`. -/
theorem runner_is_known_dll_always_false :
    env9.search_dll "k32.dll"
      = .ok (some ⟨.KnownDLLs kd9, "C:/w/s32/k32.dll"⟩)
    ∧ (LookupPathEntry.KnownDLLs kd9).isKnownDLLs = true
    ∧ (LookupPathEntry.KnownDLLs kd9).is_system = true
    ∧ (graph_of (runR env9 (mkQuery "C:/w/s32/k32.dll") 10)).bind
        (fun g => g.get "k32.dll")
      = some
          { dllname := "k32.dll", depth_first_appearance := 0, found := true,
            details := some
              { is_api_set := false, is_system := true, is_known_dll := false,
                full_path := "C:/w/s32/k32.dll", dependencies := none,
                symbols := none } } :=
  ⟨rfl, rfl, rfl, rfl⟩

/-- An API-Set map holding the base name `api-ms-win-x`. -/
def am5 : ApisetMap := [("api-ms-win-x", ["kernelbase.dll"])]

/-- An environment resolving `api-ms-win-x.dll` through the ApiSet entry;
the physical downlevel file's export table names the DLL in upper case. -/
def env5 : RunnerEnv :=
  { search_dll := fun n =>
      if n = "api-ms-win-x.dll" then
        .ok (some ⟨.ApiSet am5, "C:/w/s32/downlevel/api-ms-win-x.dll"⟩)
      else .ok none
    open_pe := fun _ =>
      .ok ⟨some "API-MS-WIN-X.DLL", .ok ["physical.dll"], .ok [], .ok []⟩
    apiset_map := some am5 }

/-- C5 counterexample: the module is resolved through the ApiSet entry and
its canonical name is `API-MS-WIN-X.DLL`; the claim's key — the canonical
name lowercased with `.dll` stripped — is present in the map with hosts
`["kernelbase.dll"]`, yet the recorded dependency list is `none`, because
runner.rs looks the canonical name up without lowercasing
(`dllname.trim_end_matches(".dll")`), and `.DLL` is not the suffix
`.dll`. -/
theorem apiset_dependency_lookup_not_lowercased :
    (graph_of (runR env5 (mkQuery "C:/a/api-ms-win-x.dll") 10)).bind
        (fun g => g.get "api-ms-win-x.dll")
      = some
          { dllname := "API-MS-WIN-X.DLL", depth_first_appearance := 0,
            found := true,
            details := some
              { is_api_set := true, is_system := true, is_known_dll := false,
                full_path := "C:/w/s32/downlevel/api-ms-win-x.dll",
                dependencies := none, symbols := none } }
    ∧ am5.lookup (trim_end_matches (toLowerStr "API-MS-WIN-X.DLL") ".dll")
        = some ["kernelbase.dll"]
    ∧ (none : Option (List String)) ≠ some ["kernelbase.dll"] :=
  ⟨rfl, rfl, by decide⟩

/-- An environment realizing the LIFO-depth anomaly: the root depends on
`X.dll` and `B.dll`, `B.dll` depends on `X.dll` again, and `X.dll` is
nowhere to be found. -/
def env3 : RunnerEnv :=
  { search_dll := fun n =>
      if n = "root.exe" then
        .ok (some ⟨.ExecutableDir "C:/a", "C:/a/root.exe"⟩)
      else if n = "B.dll" then
        .ok (some ⟨.ExecutableDir "C:/a", "C:/a/B.dll"⟩)
      else .ok none
    open_pe := fun p =>
      if p = "C:/a/root.exe" then
        .ok ⟨some "root.exe", .ok ["X.dll", "B.dll"], .ok [], .ok []⟩
      else .ok ⟨some "B.dll", .ok ["X.dll"], .ok [], .ok []⟩
    apiset_map := none }

/-- C3 counterexample: in the `env3` run, `X.dll` is first enqueued at depth
1 (as a dependency of the root), later enqueued again at depth 2 (as a
dependency of `B.dll`); the LIFO queue pops the depth-2 job first, so the
record is created with `depth_first_appearance = 2`, which exceeds the
smallest enqueued depth 1. -/
theorem depth_exceeds_min_enqueued_depth :
    (graph_of (runR env3 (mkQuery "C:/a/root.exe") 10)).bind
        (fun g => (g.get "X.dll").map (fun e => e.depth_first_appearance))
      = some 2
    ∧ enqueue_log_of (runR env3 (mkQuery "C:/a/root.exe") 10)
      = some [("root.exe", 0), ("X.dll", 1), ("B.dll", 1), ("X.dll", 2)]
    ∧ ¬ (2 ≤ 1) :=
  ⟨rfl, rfl, by decide⟩

/-- Extending an association list on the right keeps existing hits. -/
theorem lookup_append_of_some {β : Type} (l l2 : List (String × β))
    (k : String) (v : β) (h : l.lookup k = some v) :
    (l ++ l2).lookup k = some v := by
  induction l with
  | nil => simp [List.lookup] at h
  | cons p t ihh =>
    rw [List.lookup] at h
    rw [List.cons_append, List.lookup]
    by_cases hk : k == p.1
    · rw [hk] at h ⊢
      exact h
    · rw [Bool.not_eq_true] at hk
      rw [hk] at h ⊢
      exact ihh h

/-- Appending a fresh key makes it findable. -/
theorem lookup_append_self {β : Type} (l : List (String × β))
    (k : String) (v : β) (h : l.lookup k = none) :
    (l ++ [(k, v)]).lookup k = some v := by
  induction l with
  | nil => simp [List.lookup]
  | cons p t ihh =>
    rw [List.lookup] at h
    rw [List.cons_append, List.lookup]
    by_cases hk : k == p.1
    · rw [hk] at h
      simp at h
    · rw [Bool.not_eq_true] at hk
      rw [hk] at h ⊢
      exact ihh h

/-- `insert` only ever appends to the index. -/
theorem insert_extends (g : Executables) (rec : Executable) :
    ∃ tail, (g.insert rec).index = g.index ++ tail := by
  unfold Executables.insert
  by_cases hc : (g.get rec.dllname).isSome
  · rw [if_pos hc]
    exact ⟨[], by simp⟩
  · rw [if_neg hc]
    exact ⟨[(toLowerStr rec.dllname, rec)], rfl⟩

/-- `enqueue` leaves the graph untouched. -/
theorem enqueue_graph (st : RunnerState) (n : String) (d : Nat) :
    (enqueue st n d).executables_found = st.executables_found := by
  unfold enqueue
  split
  · rfl
  · rfl

/-- Enqueuing a list of dependencies leaves the graph untouched. -/
theorem foldl_enqueue_graph (deps : List String) (d : Nat) :
    ∀ st : RunnerState,
      (deps.foldl (fun s x => enqueue s x d) st).executables_found
        = st.executables_found := by
  induction deps with
  | nil => intro st; rfl
  | cons x t ihh =>
    intro st
    rw [List.foldl_cons, ihh, enqueue_graph]

/-- `popJob` leaves the graph untouched. -/
theorem popJob_graph (st : RunnerState) (j : Job) (st1 : RunnerState)
    (h : popJob st = some (j, st1)) :
    st1.executables_found = st.executables_found := by
  unfold popJob at h
  cases hg : st.executables_to_lookup.getLast? with
  | none => rw [hg] at h; simp at h
  | some j2 =>
    rw [hg] at h
    simp at h
    rw [← h.2]

/-- `register_finding` is `insert` on the graph. -/
theorem register_graph (st1 : RunnerState) (rec : Executable) :
    (register_finding st1 rec).executables_found
      = st1.executables_found.insert rec := rfl

/-- Registering a record after the dependency enqueues only appends to the
graph index. -/
theorem register_match_extends (st : RunnerState) (rec : Executable)
    (o : Option (List String)) (d : Nat) :
    ∃ tail,
      (register_finding
        (match o with
         | some deps => deps.foldl (fun s x => enqueue s x d) st
         | none => st) rec).executables_found.index
      = st.executables_found.index ++ tail := by
  have hgM : (match o with
      | some deps => deps.foldl (fun s x => enqueue s x d) st
      | none => st).executables_found = st.executables_found := by
    cases o with
    | none => rfl
    | some deps => exact foldl_enqueue_graph deps d st
  rw [register_graph, hgM]
  exact insert_extends _ _

/-- A successful `found_step` only appends to the graph index. -/
theorem found_step_extends (env : RunnerEnv) (q : LookupQuery)
    (st : RunnerState) (j : Job) (r : LookupResult) (st2 : RunnerState)
    (h : found_step env q st j r = .ok st2) :
    ∃ tail,
      st2.executables_found.index = st.executables_found.index ++ tail := by
  unfold found_step at h
  cases hop : env.open_pe r.fullpath with
  | error e =>
    simp only [hop] at h
    exact absurd h (by simp)
  | ok pefile =>
    simp only [hop] at h
    cases hde : compute_dependencies env r (pefile.dll_name.getD j.dllname)
        pefile with
    | error e =>
      simp only [hde] at h
      exact absurd h (by simp)
    | ok dependencies =>
      simp only [hde] at h
      cases hsy : compute_symbols q r pefile with
      | error e =>
        simp only [hsy] at h
        exact absurd h (by simp)
      | ok symbols =>
        simp only [hsy, Except.ok.injEq] at h
        rw [← h]
        exact register_match_extends _ _ _ _

/-- A successful `runStep` only appends to the graph index. -/
theorem runStep_extends (env : RunnerEnv) (q : LookupQuery)
    (st : RunnerState) (j : Job) (st2 : RunnerState)
    (h : runStep env q st j = .ok st2) :
    ∃ tail,
      st2.executables_found.index = st.executables_found.index ++ tail := by
  unfold runStep at h
  by_cases hdep : j.depth ≤ q.parameters.max_depth.getD usizeMax
  · rw [if_pos hdep] at h
    cases hcon : st.executables_found.contains j.dllname with
    | true =>
      rw [hcon] at h
      simp at h
      exact ⟨[], by rw [← h]; simp⟩
    | false =>
      rw [hcon] at h
      simp only [Bool.false_eq_true, if_false] at h
      cases hsr : effective_search env j.dllname with
      | none =>
        simp only [hsr] at h
        simp at h
        rw [← h, register_graph]
        exact insert_extends _ _
      | some r =>
        simp only [hsr] at h
        exact found_step_extends env q st j r st2 h
  · rw [if_neg hdep] at h
    simp at h
    exact ⟨[], by rw [← h]; simp⟩

/-- C3 amended: once a module record is inserted into the graph it is never
modified for the rest of the run — in particular its
`depth_first_appearance` never grows.  (The first half of the original
claim fails: the recorded depth is the depth of the job the LIFO queue pops
first, which can exceed the smallest enqueued depth.) -/
theorem record_once_inserted_never_changes (env : RunnerEnv)
    (q : LookupQuery) (fuel : Nat) (st st' : RunnerState)
    (k : String) (v : Executable)
    (hrun : runLoop env q fuel st = some (.ok st'))
    (hk : st.executables_found.index.lookup k = some v) :
    st'.executables_found.index.lookup k = some v := by
  induction fuel generalizing st with
  | zero => simp [runLoop] at hrun
  | succ fuel ih =>
    rw [runLoop] at hrun
    cases hp : popJob st with
    | none =>
      simp only [hp] at hrun
      simp at hrun
      rw [← hrun]
      exact hk
    | some pr =>
      obtain ⟨j, st1⟩ := pr
      simp only [hp] at hrun
      cases hs : runStep env q st1 j with
      | error e =>
        simp only [hs] at hrun
        simp at hrun
      | ok st2 =>
        simp only [hs] at hrun
        apply ih st2 hrun
        have hg1 : st1.executables_found = st.executables_found :=
          popJob_graph st j st1 hp
        obtain ⟨tail, htail⟩ := runStep_extends env q st1 j st2 hs
        rw [htail, hg1]
        exact lookup_append_of_some _ _ _ _ hk

/-- A one-record graph used as a witness state. -/
def stW : RunnerState :=
  ⟨[], ⟨[("x.dll", missRec)]⟩, [], []⟩

/-- Witness for `record_once_inserted_never_changes`: a drained run from
`stW` keeps the stored record for `x.dll` unchanged. -/
theorem record_once_inserted_never_changes_witness :
    stW.executables_found.index.lookup "x.dll" = some missRec :=
  record_once_inserted_never_changes env3 (mkQuery "C:/a/root.exe") 1
    stW stW "x.dll" missRec rfl rfl

/-- An environment in which the file found for the name `foo.dll` declares
the canonical name `bar.dll` (export-table DLL name) and depends on
`foo.dll` itself. -/
def env4 : RunnerEnv :=
  { search_dll := fun n =>
      if n = "foo.dll" then
        .ok (some ⟨.ExecutableDir "C:/a", "C:/a/foo.dll"⟩)
      else .ok none
    open_pe := fun _ =>
      .ok ⟨some "bar.dll", .ok ["foo.dll"], .ok [], .ok []⟩
    apiset_map := none }

/-- The query of the diverging run. -/
def q4 : LookupQuery := mkQuery "C:/a/foo.dll"

/-- The record the first iteration of the `env4` run inserts. -/
def barRec4 : Executable :=
  { dllname := "bar.dll", depth_first_appearance := 0, found := true,
    details := some
      { is_api_set := false, is_system := false, is_known_dll := false,
        full_path := "C:/a/foo.dll", dependencies := some ["foo.dll"],
        symbols := none } }

/-- The graph after the first iteration of the `env4` run. -/
def G4 : Executables := ⟨[("bar.dll", barRec4)]⟩

/-- From a state whose queue holds one `foo.dll` job and whose graph is
`G4`, the `env4` loop never finishes: the graph contains `bar.dll` but not
`foo.dll`, so each iteration looks `foo.dll` up again, re-enqueues it at
the wrapped successor depth, and fails to insert anything new. -/
theorem env4_loop_never_finishes :
    ∀ (fuel d : Nat) (L1 L2 : List (String × Nat)), d < 2 ^ 64 →
      runLoop env4 q4 fuel ⟨[⟨"foo.dll", d⟩], G4, L1, L2⟩ = none := by
  intro fuel
  induction fuel with
  | zero => intro d L1 L2 _; rfl
  | succ fuel ih =>
    intro d L1 L2 hd
    rw [runLoop]
    rw [show popJob ⟨[⟨"foo.dll", d⟩], G4, L1, L2⟩
        = some (⟨"foo.dll", d⟩, ⟨[], G4, L1, L2 ++ [("foo.dll", d)]⟩)
      from rfl]
    have hstep : runStep env4 q4 ⟨[], G4, L1, L2 ++ [("foo.dll", d)]⟩
        ⟨"foo.dll", d⟩
        = .ok ⟨[⟨"foo.dll", wrapSucc d⟩], G4,
            L1 ++ [("foo.dll", wrapSucc d)], L2 ++ [("foo.dll", d)]⟩ := by
      have hcond : (⟨"foo.dll", d⟩ : Job).depth
          ≤ q4.parameters.max_depth.getD usizeMax := by
        show d ≤ usizeMax
        unfold usizeMax
        omega
      unfold runStep
      rw [if_pos hcond]
      rfl
    simp only [hstep]
    exact ih (wrapSucc d) _ _ (Nat.mod_lt _ (by norm_num))

/-- C4 counterexample: the `env4` resolver run does not terminate — for
every amount of fuel the loop is still running.  (The queue is a LIFO
stack and a name is *not* dequeued at most once: because the record is
stored under the canonical name `bar.dll`, the graph never contains
`foo.dll`, which is dequeued, re-looked-up and re-enqueued forever, with
the depth wrapping around `usize`.) -/
theorem resolver_run_diverges :
    ¬ ∃ fuel : Nat, (runR env4 q4 fuel).isSome = true := by
  rintro ⟨fuel, hf⟩
  cases fuel with
  | zero =>
    rw [show runR env4 q4 0 = none from rfl] at hf
    simp at hf
  | succ n =>
    have h1 : runR env4 q4 (n + 1)
        = runLoop env4 q4 n
            ⟨[⟨"foo.dll", 1⟩], G4,
              [("foo.dll", 0), ("foo.dll", 1)], [("foo.dll", 0)]⟩ := by
      show runLoop env4 q4 (n + 1)
          ⟨[⟨"foo.dll", 0⟩], ⟨[]⟩, [("foo.dll", 0)], []⟩ = _
      rw [runLoop]
      simp only [show popJob ⟨[⟨"foo.dll", 0⟩], ⟨[]⟩, [("foo.dll", 0)], []⟩
          = some (⟨"foo.dll", 0⟩,
              ⟨[], ⟨[]⟩, [("foo.dll", 0)], [("foo.dll", 0)]⟩) from rfl]
      simp only [show runStep env4 q4
            ⟨[], ⟨[]⟩, [("foo.dll", 0)], [("foo.dll", 0)]⟩ ⟨"foo.dll", 0⟩
          = .ok ⟨[⟨"foo.dll", 1⟩], G4,
              [("foo.dll", 0), ("foo.dll", 1)], [("foo.dll", 0)]⟩ from rfl]
    rw [h1, env4_loop_never_finishes n 1 _ _ (by norm_num)] at hf
    simp at hf

/-- The dependency names that processing the name `n` enqueues (empty when
`n` is not found, or resolution of its dependency list fails or yields
`None`). -/
def computed_deps (env : RunnerEnv) (n : String) : List String :=
  match effective_search env n with
  | none => []
  | some r =>
    match env.open_pe r.fullpath with
    | .error _ => []
    | .ok pefile =>
      match compute_dependencies env r (pefile.dll_name.getD n) pefile with
      | .error _ => []
      | .ok none => []
      | .ok (some deps) => deps

/-- Processing the name `n` hits none of the `?` abort points of the loop
body. -/
def step_ok (env : RunnerEnv) (q : LookupQuery) (n : String) : Prop :=
  match effective_search env n with
  | none => True
  | some r =>
    match env.open_pe r.fullpath with
    | .error _ => False
    | .ok pefile =>
      (∃ o, compute_dependencies env r (pefile.dll_name.getD n) pefile
        = .ok o)
      ∧ (∃ o, compute_symbols q r pefile = .ok o)

/-- The canonical (export-table) name of the file found for `n` lowercases
to `n` itself — the well-behaved situation the termination argument of the
spec implicitly assumes. -/
def canonical_ok (env : RunnerEnv) (n : String) : Prop :=
  match effective_search env n with
  | none => True
  | some r =>
    match env.open_pe r.fullpath with
    | .error _ => True
    | .ok pefile => toLowerStr (pefile.dll_name.getD n) = toLowerStr n

/-- The distinct lowercased keys of a finite name universe. -/
def keyList (uni : List String) : List String :=
  (uni.map toLowerStr).dedup

/-- An upper bound on the queue growth that resolving the key `k` can ever
cause, plus one. -/
def name_weight (env : RunnerEnv) (uni : List String) (k : String) : Nat :=
  1 + ((uni.filter (fun u => toLowerStr u == k)).map
        (fun u => (computed_deps env u).length)).sum

/-- The keys of the universe not yet present in the graph. -/
def missing_keys (uni : List String) (g : Executables) : List String :=
  (keyList uni).filter (fun k => (g.index.lookup k).isNone)

/-- The termination measure: queue length plus the weights of the keys the
graph is still missing. -/
def runMeasure (env : RunnerEnv) (uni : List String) (st : RunnerState) :
    Nat :=
  st.executables_to_lookup.length
    + ((missing_keys uni st.executables_found).map (name_weight env uni)).sum

/-- Every queued job's name belongs to the universe. -/
def queue_in_uni (uni : List String) (st : RunnerState) : Prop :=
  ∀ j ∈ st.executables_to_lookup, j.dllname ∈ uni

/-- Enough fuel for a run over the universe `uni`. -/
def runnerFuel (env : RunnerEnv) (q : LookupQuery) (uni : List String) :
    Nat :=
  match file_name q.target.target_exe with
  | none => 1
  | some fn => runMeasure env uni (enqueue ⟨[], ⟨[]⟩, [], []⟩ fn 0) + 1

/-- `getLast?` yields an element of the list. -/
theorem mem_of_getLast? {α : Type} {l : List α} {a : α}
    (h : l.getLast? = some a) : a ∈ l := by
  induction l with
  | nil => simp at h
  | cons x t ihh =>
    cases t with
    | nil =>
      simp [List.getLast?] at h
      simp [h]
    | cons y u =>
      rw [List.getLast?_cons_cons] at h
      exact List.mem_cons_of_mem _ (ihh h)

/-- `getLast? = none` exactly on the empty list. -/
theorem getLast?_none_iff {α : Type} (l : List α) :
    l.getLast? = none ↔ l = [] := by
  cases l with
  | nil => simp
  | cons x t =>
    simp only [iff_false, List.cons_ne_nil, iff_false]
    intro h
    rw [List.getLast?_eq_getLast _ (by simp)] at h
    simp at h

/-- What `popJob` returns when it succeeds. -/
theorem popJob_spec (st : RunnerState) (j : Job) (st1 : RunnerState)
    (h : popJob st = some (j, st1)) :
    j ∈ st.executables_to_lookup
    ∧ st1.executables_to_lookup = st.executables_to_lookup.dropLast
    ∧ st1.executables_found = st.executables_found := by
  unfold popJob at h
  cases hg : st.executables_to_lookup.getLast? with
  | none => rw [hg] at h; simp at h
  | some j2 =>
    rw [hg] at h
    simp at h
    refine ⟨?_, ?_, ?_⟩
    · rw [← h.1]
      exact mem_of_getLast? hg
    · rw [← h.2]
    · rw [← h.2]

/-- The queue after an `enqueue`: either unchanged or one more job with the
given name. -/
theorem enqueue_queue (st : RunnerState) (n : String) (d : Nat) :
    (enqueue st n d).executables_to_lookup = st.executables_to_lookup
    ∨ (enqueue st n d).executables_to_lookup
        = st.executables_to_lookup ++ [⟨n, d⟩] := by
  unfold enqueue
  split
  · exact Or.inl rfl
  · exact Or.inr rfl

/-- Queue-length and membership bounds for the dependency enqueues. -/
theorem foldl_enqueue_queue (dep : Nat) :
    ∀ (deps : List String) (st : RunnerState),
      (deps.foldl (fun s d => enqueue s d dep) st).executables_to_lookup.length
        ≤ st.executables_to_lookup.length + deps.length
      ∧ ∀ x ∈ (deps.foldl (fun s d => enqueue s d dep)
            st).executables_to_lookup,
          x ∈ st.executables_to_lookup ∨ x.dllname ∈ deps := by
  intro deps
  induction deps with
  | nil =>
    intro st
    exact ⟨by simp, fun x hx => Or.inl hx⟩
  | cons d t ihd =>
    intro st
    rw [List.foldl_cons]
    obtain ⟨hlen, hmem⟩ := ihd (enqueue st d dep)
    constructor
    · rcases enqueue_queue st d dep with he | he
      · rw [he] at hlen
        simp only [List.length_cons]
        omega
      · rw [he] at hlen
        simp at hlen
        simp only [List.length_cons]
        omega
    · intro x hx
      rcases hmem x hx with hx1 | hx1
      · rcases enqueue_queue st d dep with he | he
        · rw [he] at hx1
          exact Or.inl hx1
        · rw [he] at hx1
          rcases List.mem_append.mp hx1 with h2 | h2
          · exact Or.inl h2
          · rw [List.mem_singleton] at h2
            rw [h2]
            exact Or.inr (List.mem_cons_self _ _)
      · exact Or.inr (List.mem_cons_of_mem _ hx1)

/-- Appending a pair with a different key does not change a lookup. -/
theorem lookup_append_single_ne {β : Type} (l : List (String × β))
    (k k0 : String) (v : β) (h : k ≠ k0) :
    (l ++ [(k0, v)]).lookup k = l.lookup k := by
  induction l with
  | nil =>
    have hbe : (k == k0) = false := by
      rw [beq_eq_false_iff_ne]
      exact h
    simp [List.lookup, hbe]
  | cons p t ihh =>
    rw [List.cons_append, List.lookup, List.lookup]
    by_cases hk : k == p.1
    · rw [hk]
    · rw [Bool.not_eq_true] at hk
      rw [hk]
      exact ihh

/-- Removing exactly the member `k` from those selected by a filter drops
its weight from the sum. -/
theorem sum_filter_drop_key (w : String → Nat) :
    ∀ (l : List String) (k : String), l.Nodup → k ∈ l →
      ∀ p p' : String → Bool, p k = true → p' k = false →
      (∀ x ∈ l, x ≠ k → p' x = p x) →
      ((l.filter p').map w).sum + w k = ((l.filter p).map w).sum := by
  intro l
  induction l with
  | nil => intro k _ hk; simp at hk
  | cons a t ihl =>
    intro k hnd hk p p' hp hp' hag
    rw [List.nodup_cons] at hnd
    rcases List.mem_cons.mp hk with h1 | h1
    · subst h1
      rw [List.filter_cons_of_pos hp,
        List.filter_cons_of_neg (by simp [hp'])]
      have hft : t.filter p' = t.filter p := by
        apply List.filter_congr
        intro x hx
        exact hag x (List.mem_cons_of_mem _ hx)
          (fun he => hnd.1 (he ▸ hx))
      rw [hft, List.map_cons, List.sum_cons]
      omega
    · have hak : a ≠ k := fun he => hnd.1 (he ▸ h1)
      have hihl := ihl k hnd.2 h1 p p' hp hp'
        (fun x hx hxk => hag x (List.mem_cons_of_mem _ hx) hxk)
      have hpa' : p' a = p a := hag a (List.mem_cons_self _ _) hak
      by_cases hpa : p a = true
      · rw [List.filter_cons_of_pos hpa,
          List.filter_cons_of_pos (hpa'.trans hpa),
          List.map_cons, List.sum_cons, List.map_cons, List.sum_cons]
        omega
      · rw [Bool.not_eq_true] at hpa
        rw [List.filter_cons_of_neg (by simp [hpa', hpa]),
          List.filter_cons_of_neg (by simp [hpa])]
        exact hihl

/-- A member's image is at most the sum over the list. -/
theorem le_sum_of_mem (f : String → Nat) (l : List String) (a : String)
    (ha : a ∈ l) : f a ≤ (l.map f).sum := by
  induction l with
  | nil => simp at ha
  | cons x t ihh =>
    rw [List.map_cons, List.sum_cons]
    rcases List.mem_cons.mp ha with h1 | h1
    · rw [h1]
      omega
    · have := ihh h1
      omega

/-- For a universe member `u`, the weight of its key covers one unit plus
all its computed dependencies. -/
theorem name_weight_covers (env : RunnerEnv) (uni : List String)
    (u : String) (hu : u ∈ uni) :
    1 + (computed_deps env u).length
      ≤ name_weight env uni (toLowerStr u) := by
  unfold name_weight
  have hmem : u ∈ uni.filter (fun x => toLowerStr x == toLowerStr u) := by
    apply List.mem_filter.mpr
    exact ⟨hu, by simp⟩
  have h2 : (computed_deps env u).length
      ≤ ((uni.filter (fun x => toLowerStr x == toLowerStr u)).map
          (fun x => (computed_deps env x).length)).sum :=
    le_sum_of_mem (fun x => (computed_deps env x).length) _ u hmem
  omega

/-- Inserting the missing key `k0` (drawn from the universe) shrinks the
missing-weight sum by exactly `name_weight k0`. -/
theorem missing_sum_after_insert (env : RunnerEnv) (uni : List String)
    (g : Executables) (k0 : String) (rec : Executable)
    (hk0 : k0 ∈ keyList uni)
    (hmiss : g.index.lookup k0 = none)
    (g2 : Executables)
    (hg2 : g2.index = g.index ++ [(k0, rec)]) :
    ((missing_keys uni g2).map (name_weight env uni)).sum
        + name_weight env uni k0
      = ((missing_keys uni g).map (name_weight env uni)).sum := by
  unfold missing_keys
  apply sum_filter_drop_key (name_weight env uni) (keyList uni) k0
    (by unfold keyList; exact List.nodup_dedup _) hk0
  · simp [hmiss]
  · rw [hg2]
    rw [lookup_append_self _ _ _ hmiss]
    simp
  · intro x _ hx
    rw [hg2, lookup_append_single_ne _ _ _ _ hx]

/-- Inserting a record whose key is absent appends exactly one pair. -/
theorem insert_fresh (g : Executables) (rec : Executable) (k : String)
    (hk : toLowerStr rec.dllname = k)
    (h : g.index.lookup k = none) :
    (g.insert rec).index = g.index ++ [(k, rec)] := by
  unfold Executables.insert Executables.get
  rw [hk, if_neg (by simp [h])]

/-- `popJob` fails only on the empty queue. -/
theorem popJob_none (st : RunnerState) (h : popJob st = none) :
    st.executables_to_lookup = [] := by
  unfold popJob at h
  cases hg : st.executables_to_lookup.getLast? with
  | none => exact (getLast?_none_iff _).mp hg
  | some j => rw [hg] at h; simp at h

/-- When processing `j.dllname` hits no abort point and its canonical name
agrees, `runStep` succeeds, and either it changes nothing (depth cap or
already-found skip) or it inserts exactly the key `toLowerStr j.dllname`
(previously missing) and grows the queue by at most the computed
dependencies. -/
theorem runStep_ok_cases (env : RunnerEnv) (q : LookupQuery)
    (st : RunnerState) (j : Job)
    (hok : step_ok env q j.dllname)
    (hcan : canonical_ok env j.dllname) :
    ∃ st2, runStep env q st j = .ok st2 ∧
      ((st2.executables_to_lookup = st.executables_to_lookup
          ∧ st2.executables_found = st.executables_found)
       ∨ (st.executables_found.index.lookup (toLowerStr j.dllname) = none
          ∧ (∃ rec, st2.executables_found.index
              = st.executables_found.index
                ++ [(toLowerStr j.dllname, rec)])
          ∧ st2.executables_to_lookup.length
              ≤ st.executables_to_lookup.length
                + (computed_deps env j.dllname).length
          ∧ ∀ x ∈ st2.executables_to_lookup,
              x ∈ st.executables_to_lookup
              ∨ x.dllname ∈ computed_deps env j.dllname)) := by
  unfold runStep
  by_cases hd : j.depth ≤ q.parameters.max_depth.getD usizeMax
  · rw [if_pos hd]
    cases hc : st.executables_found.contains j.dllname with
    | true =>
      rw [if_pos rfl]
      exact ⟨st, rfl, Or.inl ⟨rfl, rfl⟩⟩
    | false =>
      simp only [Bool.false_eq_true, if_false]
      have hmiss : st.executables_found.index.lookup (toLowerStr j.dllname)
          = none := by
        have hc2 : (st.executables_found.index.lookup
            (toLowerStr j.dllname)).isSome = false := hc
        exact Option.not_isSome_iff_eq_none.mp (by simp [hc2])
      cases hsr : effective_search env j.dllname with
      | none =>
        simp only [hsr]
        refine ⟨_, rfl, Or.inr ⟨hmiss, ?_, ?_, ?_⟩⟩
        · rw [register_graph]
          exact ⟨_, insert_fresh _ _ _ rfl hmiss⟩
        · exact Nat.le_add_right _ _
        · intro x hx
          exact Or.inl hx
      | some r =>
        simp only [hsr]
        simp only [step_ok, hsr] at hok
        simp only [canonical_ok, hsr] at hcan
        cases hop : env.open_pe r.fullpath with
        | error e =>
          simp only [hop] at hok
        | ok pefile =>
          simp only [hop] at hok
          simp only [hop] at hcan
          obtain ⟨⟨dependencies, hde⟩, ⟨symbols, hsy⟩⟩ := hok
          cases dependencies with
          | none =>
            simp only [found_step, hop, hde, hsy]
            refine ⟨_, rfl, Or.inr ⟨hmiss, ?_, ?_, ?_⟩⟩
            · rw [register_graph]
              exact ⟨_, insert_fresh _ _ _ hcan hmiss⟩
            · exact Nat.le_add_right _ _
            · intro x hx
              exact Or.inl hx
          | some deps =>
            have hcd : computed_deps env j.dllname = deps := by
              simp only [computed_deps, hsr, hop, hde]
            simp only [found_step, hop, hde, hsy]
            obtain ⟨hlen, hmem⟩ := foldl_enqueue_queue (wrapSucc j.depth)
              deps st
            have hgF : (deps.foldl
                  (fun s d => enqueue s d (wrapSucc j.depth))
                  st).executables_found = st.executables_found :=
              foldl_enqueue_graph deps _ st
            refine ⟨_, rfl, Or.inr ⟨hmiss, ?_, ?_, ?_⟩⟩
            · rw [register_graph, hgF]
              exact ⟨_, insert_fresh _ _ _ hcan hmiss⟩
            · rw [hcd]
              exact hlen
            · intro x hx
              rw [hcd]
              exact hmem x hx
  · rw [if_neg hd]
    exact ⟨st, rfl, Or.inl ⟨rfl, rfl⟩⟩

/-- Under a name universe closed under computed dependencies, with no abort
points and agreeing canonical names, the loop drains the queue within
`runMeasure` iterations. -/
theorem runLoop_terminates (env : RunnerEnv) (q : LookupQuery)
    (uni : List String)
    (Huni : ∀ n ∈ uni, ∀ d ∈ computed_deps env n, d ∈ uni)
    (Hok : ∀ n ∈ uni, step_ok env q n)
    (Hcan : ∀ n ∈ uni, canonical_ok env n) :
    ∀ fuel st, queue_in_uni uni st →
      runMeasure env uni st < fuel →
      ∃ st', runLoop env q fuel st = some (.ok st')
        ∧ st'.executables_to_lookup = [] := by
  intro fuel
  induction fuel with
  | zero => intro st _ hm; omega
  | succ fuel ih =>
    intro st hq hm
    rw [runLoop]
    cases hp : popJob st with
    | none =>
      simp only [hp]
      exact ⟨st, rfl, popJob_none st hp⟩
    | some pr =>
      obtain ⟨j, st1⟩ := pr
      simp only [hp]
      obtain ⟨hjmem, hq1, hg1⟩ := popJob_spec st j st1 hp
      have hju : j.dllname ∈ uni := hq j hjmem
      obtain ⟨st2, hstep, hcases⟩ :=
        runStep_ok_cases env q st1 j (Hok _ hju) (Hcan _ hju)
      simp only [hstep]
      have hne : st.executables_to_lookup ≠ [] := by
        intro h0; rw [h0] at hjmem; simp at hjmem
      have h0 : 0 < st.executables_to_lookup.length :=
        List.length_pos.mpr hne
      have hlen1 : st1.executables_to_lookup.length + 1
          = st.executables_to_lookup.length := by
        rw [hq1, List.length_dropLast]
        omega
      rcases hcases with ⟨hqeq, hgeq⟩ | ⟨hmiss, ⟨rec, hg2⟩, hql, hqm⟩
      · apply ih st2
        · intro x hx
          rw [hqeq, hq1] at hx
          exact hq x ((List.dropLast_sublist _).subset hx)
        · unfold runMeasure at hm ⊢
          rw [hqeq, hgeq, hg1]
          omega
      · have hk_in : toLowerStr j.dllname ∈ keyList uni := by
          unfold keyList
          exact List.mem_dedup.mpr (List.mem_map_of_mem _ hju)
        have hmsum := missing_sum_after_insert env uni
          st1.executables_found (toLowerStr j.dllname) rec hk_in hmiss
          st2.executables_found hg2
        have hw := name_weight_covers env uni j.dllname hju
        apply ih st2
        · intro x hx
          rcases hqm x hx with h1 | h1
          · rw [hq1] at h1
            exact hq x ((List.dropLast_sublist _).subset h1)
          · exact Huni _ hju _ h1
        · rw [hg1] at hmsum
          unfold runMeasure at hm ⊢
          omega

/-- An environment in which `app.exe` is found and depends on `b.dll`,
which is nowhere to be found. -/
def envT : RunnerEnv :=
  { search_dll := fun n =>
      if n = "app.exe" then
        .ok (some ⟨.ExecutableDir "C:/a", "C:/a/app.exe"⟩)
      else .ok none
    open_pe := fun _ => .ok ⟨some "app.exe", .ok ["b.dll"], .ok [], .ok []⟩
    apiset_map := none }

/-- C4 amended: the loop of `Runner::run` terminates with the work queue
drained and returns the accumulated graph, *provided* a finite name
universe closed under the computed dependency lists exists, no iteration
hits an abort point (PE open/parse or symbol errors propagate with `?`),
and every found file's canonical export name lowercases to the queried
name.  Without the last hypothesis the loop can run forever (see the
divergence counterexample: records are keyed by canonical name while the
re-enqueue guard checks the queried name), and a name can be dequeued any
number of times, so the claim's unconditional termination argument is
wrong as stated. -/
theorem resolver_terminates (env : RunnerEnv) (q : LookupQuery)
    (uni : List String) (fn : String)
    (hfn : file_name q.target.target_exe = some fn)
    (hfnu : fn ∈ uni)
    (Huni : ∀ n ∈ uni, ∀ d ∈ computed_deps env n, d ∈ uni)
    (Hok : ∀ n ∈ uni, step_ok env q n)
    (Hcan : ∀ n ∈ uni, canonical_ok env n) :
    ∃ st', runR env q (runnerFuel env q uni) = some (.ok st')
      ∧ st'.executables_to_lookup = [] := by
  unfold runR runnerFuel
  simp only [hfn]
  refine runLoop_terminates env q uni Huni Hok Hcan _ _ ?_
    (Nat.lt_succ_self _)
  intro x hx
  rw [show (enqueue ⟨[], ⟨[]⟩, [], []⟩ fn 0).executables_to_lookup
      = [⟨fn, 0⟩] from rfl] at hx
  rw [List.mem_singleton] at hx
  rw [hx]
  exact hfnu

/-- Witness for `resolver_terminates`: with the universe
`["app.exe", "b.dll"]` the run of `envT` finishes with a drained queue. -/
theorem resolver_terminates_witness :
    ∃ st', runR envT (mkQuery "C:/a/app.exe")
        (runnerFuel envT (mkQuery "C:/a/app.exe") ["app.exe", "b.dll"])
      = some (.ok st')
      ∧ st'.executables_to_lookup = [] :=
  resolver_terminates envT (mkQuery "C:/a/app.exe") ["app.exe", "b.dll"]
    "app.exe" rfl (by simp)
    (by
      intro n hn d hd
      rcases List.mem_cons.mp hn with h | h
      · subst h
        rw [show computed_deps envT "app.exe" = ["b.dll"] from rfl] at hd
        rw [List.mem_singleton] at hd
        rw [hd]
        simp
      · rw [List.mem_singleton] at h
        subst h
        rw [show computed_deps envT "b.dll" = [] from rfl] at hd
        simp at hd)
    (by
      intro n hn
      rcases List.mem_cons.mp hn with h | h
      · subst h
        exact ⟨⟨some ["b.dll"], rfl⟩, ⟨none, rfl⟩⟩
      · rw [List.mem_singleton] at h
        subst h
        trivial)
    (by
      intro n hn
      rcases List.mem_cons.mp hn with h | h
      · subst h
        rfl
      · rw [List.mem_singleton] at h
        subst h
        trivial)

/-- C5 amended: for a module freshly resolved at an ApiSet entry, the
inserted record's dependency list is exactly what the API-Set map holds
under the canonical name with trailing `.dll` suffixes trimmed
**case-sensitively** (runner.rs line 109 applies `trim_end_matches` but no
lowercasing, so the claim's "lowercased" is wrong — see the counterexample
theorem), its symbols are `None`, and the physical file's import table is
never consulted (`pefile.dependencies` is unconstrained here and may even
be an error). -/
theorem apiset_module_deps_from_map (env : RunnerEnv) (q : LookupQuery)
    (st : RunnerState) (j : Job) (r : LookupResult) (pefile : PEData)
    (hdepth : j.depth ≤ q.parameters.max_depth.getD usizeMax)
    (hnew : st.executables_found.contains j.dllname = false)
    (hsearch : effective_search env j.dllname = some r)
    (hapi : r.location.isApiSet = true)
    (hopen : env.open_pe r.fullpath = .ok pefile)
    (hnew2 : st.executables_found.index.lookup
        (toLowerStr (pefile.dll_name.getD j.dllname)) = none) :
    ∃ st2, runStep env q st j = .ok st2 ∧
      st2.executables_found.get (pefile.dll_name.getD j.dllname)
        = some
            { dllname := pefile.dll_name.getD j.dllname,
              depth_first_appearance := j.depth, found := true,
              details := some
                { is_api_set := true,
                  is_system := r.location.is_system,
                  is_known_dll := false,
                  full_path := r.fullpath,
                  dependencies := env.apiset_map.bind
                    (fun am => am.lookup
                      (trim_end_matches (pefile.dll_name.getD j.dllname)
                        ".dll")),
                  symbols := none } } := by
  have hde : compute_dependencies env r (pefile.dll_name.getD j.dllname)
      pefile
      = .ok (env.apiset_map.bind
          (fun am => am.lookup
            (trim_end_matches (pefile.dll_name.getD j.dllname) ".dll"))) := by
    unfold compute_dependencies
    rw [if_pos hapi]
  have hsy : compute_symbols q r pefile = .ok none := by
    unfold compute_symbols
    rw [if_neg (by simp [hapi])]
  unfold runStep
  rw [if_pos hdepth, hnew]
  simp only [Bool.false_eq_true, if_false, hsearch]
  unfold found_step
  simp only [hopen, hde, hsy, hapi]
  cases hO : env.apiset_map.bind
      (fun am => am.lookup
        (trim_end_matches (pefile.dll_name.getD j.dllname) ".dll")) with
  | none =>
    refine ⟨_, rfl, ?_⟩
    rw [register_graph]
    simp only [Executables.get]
    rw [insert_fresh _ _ _ rfl hnew2]
    exact lookup_append_self _ _ _ hnew2
  | some deps =>
    refine ⟨_, rfl, ?_⟩
    rw [register_graph, foldl_enqueue_graph]
    simp only [Executables.get]
    rw [insert_fresh _ _ _ rfl hnew2]
    exact lookup_append_self _ _ _ hnew2

/-- An ApiSet environment whose downlevel file has a lower-case canonical
name and an unreadable import table. -/
def envC5 : RunnerEnv :=
  { search_dll := fun n =>
      if n = "api-ms-win-x.dll" then
        .ok (some ⟨.ApiSet am5, "C:/w/s32/downlevel/api-ms-win-x.dll"⟩)
      else .ok none
    open_pe := fun _ =>
      .ok ⟨some "api-ms-win-x.dll", .error (.PEError "never parsed"),
           .ok [], .ok []⟩
    apiset_map := some am5 }

/-- Witness for `apiset_module_deps_from_map`: the record's dependencies
come from `am5` even though the file's import table cannot be read. -/
theorem apiset_module_deps_from_map_witness :
    ∃ st2, runStep envC5 (mkQuery "C:/a/app.exe") ⟨[], ⟨[]⟩, [], []⟩
        ⟨"api-ms-win-x.dll", 0⟩ = .ok st2 ∧
      st2.executables_found.get "api-ms-win-x.dll"
        = some
            { dllname := "api-ms-win-x.dll", depth_first_appearance := 0,
              found := true,
              details := some
                { is_api_set := true, is_system := true,
                  is_known_dll := false,
                  full_path := "C:/w/s32/downlevel/api-ms-win-x.dll",
                  dependencies := some ["kernelbase.dll"],
                  symbols := none } } :=
  apiset_module_deps_from_map envC5 (mkQuery "C:/a/app.exe")
    ⟨[], ⟨[]⟩, [], []⟩ ⟨"api-ms-win-x.dll", 0⟩
    ⟨.ApiSet am5, "C:/w/s32/downlevel/api-ms-win-x.dll"⟩
    ⟨some "api-ms-win-x.dll", .error (.PEError "never parsed"),
     .ok [], .ok []⟩
    (Nat.zero_le _) rfl rfl rfl rfl rfl

end DepRunner
